import Mathlib

/-!
Verification of the quantum-agentics optimization core against its
specification.  The Python modules `qam/quantum_reasoning.py`,
`qam/scheduler.py`, `qam/qaoa_optimizer.py` and `qam/hierarchical_qubo.py`
are shallowly embedded below: floating-point numbers become real numbers,
complex amplitudes become `Complex`, numpy arrays become lists or
index-functions, in-place mutation becomes explicit state passing, and
sources of randomness (`np.random.*`) become explicit function parameters.
Unbounded `while` loops are given an explicit fuel parameter; the
properties proved hold for every fuel value, hence for the actual
(terminating) executions.
-/

noncomputable section

namespace Qam

attribute [local instance] Classical.propDecidable

/-! ## `qam/quantum_reasoning.py` -/

/-- `DecisionPath` dataclass: `id`, `probability`, `actions`.
The Python dataclass compares by all fields (its custom `__hash__` only
hashes `id`). -/
structure DecisionPath where
  id : String
  probability : ℝ
  actions : List String
deriving Inhabited

/-- `QuantumReasoningState`: an insertion-ordered mapping from decision
paths to complex amplitudes (a Python dict), plus the evolution history
(amplitude snapshots; wall-clock timestamps are outside the model). -/
structure QuantumReasoningState where
  amplitudes : List (DecisionPath × ℂ)
  history : List (List (DecisionPath × ℂ))

/-- The fresh state produced by `__init__`. -/
def initState : QuantumReasoningState := ⟨[], []⟩

/-- Sum of `abs(amp) ** 2` over the amplitude map. -/
def normSqTotal (l : List (DecisionPath × ℂ)) : ℝ :=
  (l.map (fun pa => Complex.normSq pa.2)).sum

/-- The tolerance used by `np.isclose(total, 1.0, atol=1e-10)`:
`|total - 1| <= atol + rtol * |1.0|` with numpy's default `rtol = 1e-5`. -/
def iscloseBand : ℝ := 1 / 10 ^ 10 + 1 / 10 ^ 5

/-- `_validate_state`: renormalize the amplitudes (dividing by
`sqrt(total)`) when the map is non-empty and the squared-amplitude total
is not `np.isclose` to 1. -/
def validate_state (s : QuantumReasoningState) : QuantumReasoningState :=
  let t := normSqTotal s.amplitudes
  if s.amplitudes ≠ [] ∧ ¬ |t - 1| ≤ iscloseBand then
    ⟨s.amplitudes.map (fun pa => (pa.1, ((1 / Real.sqrt t : ℝ) : ℂ) * pa.2)), s.history⟩
  else s

/-- Insert-or-overwrite in the insertion-ordered map (Python dict
assignment `self.amplitudes[path] = amplitude`). -/
def assocUpdate (l : List (DecisionPath × ℂ)) (p : DecisionPath) (a : ℂ) :
    List (DecisionPath × ℂ) :=
  match l with
  | [] => [(p, a)]
  | (q, b) :: rest => if q = p then (q, a) :: rest else (q, b) :: assocUpdate rest p a

/-- Python dict lookup `self.amplitudes[p]` (0 when absent; in the code the
looked-up keys always come from the map itself). -/
def lookupAmp (l : List (DecisionPath × ℂ)) (p : DecisionPath) : ℂ :=
  match l with
  | [] => 0
  | (q, b) :: rest => if p = q then b else lookupAmp rest p

/-- `add_decision_path`: store the amplitude, then `_validate_state`. -/
def add_decision_path (s : QuantumReasoningState) (p : DecisionPath) (a : ℂ) :
    QuantumReasoningState :=
  validate_state ⟨assocUpdate s.amplitudes p a, s.history⟩

/-- Keys of the amplitude map sorted by `path.id` (the `sorted(...,
key=lambda x: x.id)` step of `evolve`). -/
def sortedPaths (l : List (DecisionPath × ℂ)) : List DecisionPath :=
  (l.map Prod.fst).insertionSort (fun p q => p.id ≤ q.id)

/-- Pair each element of a list with its position, starting at `i`. -/
def withIdx : ℕ → List α → List (ℕ × α)
  | _, [] => []
  | i, x :: xs => (i, x) :: withIdx (i + 1) xs

/-- The amplitude map rebuilt by `evolve` before validation: the
Hamiltonian (an `m × m` matrix, identity-extended to
`n = max(paths, m)`) is applied to the id-sorted state vector
(zero-padded to `n`), and only the components of the existing paths are
kept. -/
def evolveCore (s : QuantumReasoningState) (m : ℕ) (H : ℕ → ℕ → ℂ) :
    List (DecisionPath × ℂ) :=
  let paths := sortedPaths s.amplitudes
  let k := paths.length
  let n := max k m
  let Hext : ℕ → ℕ → ℂ := fun i j =>
    if i < m ∧ j < m then H i j else if i = j then 1 else 0
  let vec : ℕ → ℂ := fun j =>
    match paths.get? j with
    | some p => lookupAmp s.amplitudes p
    | none => 0
  let newAmp : ℕ → ℂ := fun i => ((List.range n).map (fun j => Hext i j * vec j)).sum
  (withIdx 0 paths).map (fun ip => (ip.2, newAmp ip.1))

/-- `evolve(hamiltonian)`: early return on an empty state or an empty
(`size == 0`) Hamiltonian; otherwise rebuild the amplitudes, append the
snapshot to the history, and `_validate_state`. -/
def evolve (s : QuantumReasoningState) (m : ℕ) (H : ℕ → ℕ → ℂ) :
    QuantumReasoningState :=
  if s.amplitudes = [] ∨ m = 0 then s
  else
    let amps := evolveCore s m H
    validate_state ⟨amps, s.history ++ [amps]⟩

/-- Errors that `measure()` can raise: `ValueError("No decision paths in
quantum state")`, the `ValueError` that `np.random.choice` raises on an
invalid probability vector, and (unreachable for an in-range sampler) an
index error. -/
inductive MeasureError where
  | emptyState
  | invalidDistribution
  | sampleOutOfRange
deriving DecidableEq

/-- The probability list handed to `np.random.choice` by `measure`:
squared amplitudes divided by their total. -/
def measureProbs (s : QuantumReasoningState) : List ℝ :=
  let probs0 := s.amplitudes.map (fun pa => Complex.normSq pa.2)
  probs0.map (fun x => x / probs0.sum)

/-- Tolerance within which `np.random.choice` accepts that the given
probabilities sum to 1 (numpy uses `sqrt(eps) ~ 1.49e-8`; the exact
constant is irrelevant to the theorems, any positive bound below 1 works). -/
def choiceAtol : ℝ := 1 / 10 ^ 8

/-- `measure()`: raise on an empty state; normalize `|amplitude|**2` to a
probability vector; sample one index with `np.random.choice` (modelled by
the `pick` parameter; `np.random.choice` itself raises when the
probabilities do not sum to 1); collapse to the selected path with
amplitude `1.0` and `_validate_state`. -/
def measure (s : QuantumReasoningState) (pick : List ℝ → ℕ) :
    Except MeasureError (DecisionPath × QuantumReasoningState) :=
  if s.amplitudes = [] then .error .emptyState
  else
    let probs := measureProbs s
    if ¬ |probs.sum - 1| ≤ choiceAtol then .error .invalidDistribution
    else
      match s.amplitudes.get? (pick probs) with
      | none => .error .sampleOutOfRange
      | some pa => .ok (pa.1, validate_state ⟨[(pa.1, (1 : ℂ))], s.history⟩)

/-- One mutation of a `QuantumReasoningState`: an `add_decision_path` call
or an `evolve` call. -/
inductive ROp where
  | add (p : DecisionPath) (a : ℂ)
  | evolve (m : ℕ) (H : ℕ → ℕ → ℂ)

/-- Apply one mutation. -/
def applyROp (s : QuantumReasoningState) : ROp → QuantumReasoningState
  | .add p a => add_decision_path s p a
  | .evolve m H => Qam.evolve s m H

/-- Run a sequence of mutations from a given state. -/
def runROps (s : QuantumReasoningState) : List ROp → QuantumReasoningState
  | [] => s
  | op :: rest => runROps (applyROp s op) rest

/-- The pre-normalization total that `_validate_state` will see for a
mutation is nonzero (all-zero amplitude vectors make the float code
produce `inf`/`nan` factors; in the real-number model they make the
renormalization a division by zero). -/
def preOk (s : QuantumReasoningState) : ROp → Prop
  | .add p a => normSqTotal (assocUpdate s.amplitudes p a) ≠ 0
  | .evolve m H => s.amplitudes = [] ∨ m = 0 ∨ normSqTotal (evolveCore s m H) ≠ 0

/-- Every mutation of the trace satisfies `preOk` at its point of use. -/
def goodTrace : QuantumReasoningState → List ROp → Prop
  | _, [] => True
  | s, op :: rest => preOk s op ∧ goodTrace (applyROp s op) rest

/-! ## `qam/scheduler.py`

`QUBOScheduler` holds mutable `reasoning_weights`; the embedding passes
that dictionary (an insertion-ordered `String × ℝ` association list)
explicitly.  `np.random.*` calls become explicit function parameters, and
the unbounded greedy `while improved` loop gets a fuel parameter (each
kept flip strictly decreases the energy over a finite state space, so the
Python loop terminates; the theorems hold for every fuel value). -/

/-- A term of the QUBO formulation (`QUBOTerm(i, j, weight)`). -/
structure QUBOTerm where
  i : ℕ
  j : ℕ
  weight : ℝ

/-- `_calculate_base_weight`: `1.0` on the diagonal, `0.5 * exp(-|i-j|)`
off the diagonal. -/
def calculate_base_weight (i j : ℕ) : ℝ :=
  if i = j then 1 else (1 / 2) * Real.exp (-|(i : ℝ) - (j : ℝ)|)

/-- Python `self.reasoning_weights.get(key, 0.0)`. -/
def lookupWeight (w : List (String × ℝ)) (k : String) : ℝ :=
  match w with
  | [] => 0
  | (k', v) :: rest => if k' = k then v else lookupWeight rest k

/-- The action tag `f"schedule_{i}"`. -/
def scheduleAction (i : ℕ) : String := "schedule_" ++ toString i

/-- `_calculate_reasoning_factor`: the individual weight on the
diagonal, `-0.5 * w_i * w_j` off the diagonal. -/
def calculate_reasoning_factor (w : List (String × ℝ)) (i j : ℕ) : ℝ :=
  let wi := lookupWeight w (scheduleAction i)
  let wj := lookupWeight w (scheduleAction j)
  if i = j then wi else -(1 / 2) * (wi * wj)

/-- `_calculate_term_weight`: `base * (1.0 + 2.0 * reasoning_factor)`. -/
def calculate_term_weight (w : List (String × ℝ)) (i j : ℕ) : ℝ :=
  calculate_base_weight i j * (1 + 2 * calculate_reasoning_factor w i j)

/-- `int(action.split('_')[1])` for a `schedule_`-prefixed action tag.
(Python raises `ValueError` on a non-numeric segment; no caller builds
such tags and no claim exercises that path, so it is folded into `none`.) -/
def parseActionPos (action : String) : Option ℕ :=
  ((action.splitOn ("_")).getD 1 ("")).toNat?

/-- Python dict accumulation `d[k] = d.get(k, 0.0) + v` (insertion
ordered). -/
def addWeightTo (acc : List (String × ℝ)) (k : String) (v : ℝ) : List (String × ℝ) :=
  match acc with
  | [] => [(k, v)]
  | (k', v') :: rest =>
    if k' = k then (k', v' + v) :: rest else (k', v') :: addWeightTo rest k v

/-- The un-normalized reasoning weights accumulated by
`build_qubo_with_reasoning` from the state's probabilities: for every
path and every `schedule_<pos>` action with `0 <= pos < horizon`, add the
path's probability to that action's weight. -/
def rawReasoningWeights (state : QuantumReasoningState) (horizon : ℕ) :
    List (String × ℝ) :=
  (state.amplitudes.map (fun pa => (pa.1, Complex.normSq pa.2))).foldl
    (fun acc pp => pp.1.actions.foldl (fun acc2 action =>
      if action.startsWith ("schedule_") then
        match parseActionPos action with
        | some pos => if pos < horizon then addWeightTo acc2 action pp.2 else acc2
        | none => acc2
      else acc2) acc) []

/-- The reasoning weights after the `total_weight > 0` normalization step
of `build_qubo_with_reasoning`. -/
def computeReasoningWeights (state : QuantumReasoningState) (horizon : ℕ) :
    List (String × ℝ) :=
  let raw := rawReasoningWeights state horizon
  let total := (raw.map Prod.snd).sum
  if 0 < total then raw.map (fun kv => (kv.1, kv.2 / total)) else raw

/-- `build_qubo_with_reasoning`: recompute the reasoning weights, then
emit one term per pair `i <= j < horizon`.  Returns the new
`reasoning_weights` state together with the terms. -/
def build_qubo_with_reasoning (state : QuantumReasoningState) (horizon : ℕ) :
    List (String × ℝ) × List QUBOTerm :=
  let w := computeReasoningWeights state horizon
  (w, (List.range horizon).flatMap (fun i =>
      (List.range (horizon - i)).map (fun d =>
        QUBOTerm.mk i (i + d) (calculate_term_weight w i (i + d)))))

/-- `_calculate_energy`: fold the terms, `weight * x_i` for linear terms
and `weight * x_i * x_j` for quadratic ones. -/
def calculate_energy (sol : ℕ → ℝ) (terms : List QUBOTerm) : ℝ :=
  terms.foldl (fun e t =>
    if t.i = t.j then e + t.weight * sol t.i else e + t.weight * sol t.i * sol t.j) 0

/-- Flip bit `i` of a 0/1 solution vector. -/
def flipBit (sol : ℕ → ℝ) (i : ℕ) : ℕ → ℝ :=
  fun j => if j = i then 1 - sol j else sol j

/-- One `for i in range(size)` pass of `_solve_classical`: flip each bit,
keep the flip exactly when the energy strictly decreases (otherwise the
flip is reverted).  State: `(solution, energy, improved)`. -/
def classicalSweep (terms : List QUBOTerm) (size : ℕ)
    (st : (ℕ → ℝ) × ℝ × Bool) : (ℕ → ℝ) × ℝ × Bool :=
  (List.range size).foldl (fun st i =>
    let sol' := flipBit st.1 i
    let e' := calculate_energy sol' terms
    if e' < st.2.1 then (sol', e', true) else st) st

/-- The `while improved` loop of `_solve_classical`, with fuel. -/
def classicalLoop (terms : List QUBOTerm) (size : ℕ) :
    ℕ → (ℕ → ℝ) × ℝ → (ℕ → ℝ) × ℝ
  | 0, se => se
  | fuel + 1, se =>
    let r := classicalSweep terms size (se.1, se.2, false)
    if r.2.2 then classicalLoop terms size fuel (r.1, r.2.1) else (r.1, r.2.1)

/-- The initial `np.random.randint(0, 2, size)` solution, as a stream of
random bits. -/
def initialSolution (randBits : ℕ → Fin 2) : ℕ → ℝ :=
  fun i => ((randBits i : ℕ) : ℝ)

/-- `_solve_classical`: greedy bit-flip local search from a random 0/1
vector. -/
def solve_classical (terms : List QUBOTerm) (size : ℕ) (randBits : ℕ → Fin 2)
    (fuel : ℕ) : ℕ → ℝ :=
  let sol := initialSolution randBits
  (classicalLoop terms size fuel (sol, calculate_energy sol terms)).1

/-- Outcome of the external Azure Quantum interaction inside
`_solve_quantum`'s `try` block: either some call raised, or a result
object came back whose optional `solutions` list holds entries with an
optional `configuration` dict (`str(i) -> value`, modelled as
`ℕ → Option ℝ`). -/
inductive ExternalOutcome where
  | raised
  | returned (solutions : Option (List (Option (ℕ → Option ℝ))))

/-- Parsing of the external result in `_solve_quantum`: a missing
`solutions` key or a first entry without `configuration` yields the
all-zero vector; an empty `solutions` list raises `IndexError` inside the
`try` (modelled as `none`, triggering the classical fallback); otherwise
`solution[i] = config.get(str(i), 0)` for `i < size`. -/
def parseQuantumResult (solutions : Option (List (Option (ℕ → Option ℝ))))
    (size : ℕ) : Option (ℕ → ℝ) :=
  match solutions with
  | none => some (fun _ => 0)
  | some [] => none
  | some (none :: _) => some (fun _ => 0)
  | some (some cfg :: _) => some (fun i => if i < size then (cfg i).getD 0 else 0)

/-- `_solve_quantum`: submit (the §6 wire formatting of
`_prepare_quantum_problem` is the external interface and is not needed by
the claims); on any raised exception or parse failure fall back to
`_solve_classical`; the function is total — nothing propagates to the
caller. -/
def solve_quantum (ext : ExternalOutcome) (terms : List QUBOTerm) (size : ℕ)
    (randBits : ℕ → Fin 2) (fuel : ℕ) : ℕ → ℝ :=
  match ext with
  | .raised => solve_classical terms size randBits fuel
  | .returned sols =>
    match parseQuantumResult sols size with
    | none => solve_classical terms size randBits fuel
    | some sol => sol

/-- A task dict as consumed by `optimize_schedule_with_reasoning`
(`{'id', 'duration', 'dependencies', 'resources'}`; a missing
`dependencies`/`resources` key behaves like the empty list). -/
structure STask where
  id : String
  duration : ℕ
  dependencies : List String
  resources : List String

/-- `schedule.get(task_id)` on the schedule dict. -/
def lookupSlot (schedule : List (String × ℕ)) (tid : String) : Option ℕ :=
  match schedule with
  | [] => none
  | (k, v) :: rest => if k = tid then some v else lookupSlot rest tid

/-- Two tasks share a resource tag. -/
def tasksConflict (t1 t2 : STask) : Bool :=
  t1.resources.any (fun r => t2.resources.contains r)

/-- Conflict check over tasks grouped by assigned slot (the sequential
`resources_used` accumulation of the source is equivalent to: no two
tasks in the same slot share a tag). -/
def noConflicts : List (ℕ × STask) → Bool
  | [] => true
  | (s, t) :: rest =>
    (rest.all (fun st => !(st.1 == s && tasksConflict t st.2))) && noConflicts rest

/-- `_validate_resources`. -/
def validate_resources (tasks : List STask) (schedule : List (String × ℕ)) : Bool :=
  noConflicts (tasks.filterMap (fun t => (lookupSlot schedule t.id).map (fun s => (s, t))))

/-- `_validate_dependencies`: every scheduled task starts strictly after
each of its scheduled dependencies. -/
def validate_dependencies (tasks : List STask) (schedule : List (String × ℕ)) : Bool :=
  tasks.all (fun task =>
    match lookupSlot schedule task.id with
    | none => true
    | some tt => task.dependencies.all (fun dep =>
        match lookupSlot schedule dep with
        | none => true
        | some dt => decide (dt < tt)))

/-- Write one matrix entry (numpy `Q[r, c] = v`). -/
def writeQ (M : ℕ → ℕ → ℝ) (r c : ℕ) (v : ℝ) : ℕ → ℕ → ℝ :=
  fun a b => if a = r ∧ b = c then v else M a b

/-- The symmetric `Q` matrix assembled from the QUBO terms in
`optimize_schedule_with_reasoning`. -/
def matrixOfTerms (terms : List QUBOTerm) : ℕ → ℕ → ℝ :=
  terms.foldl (fun M t =>
    let M1 := writeQ M t.i t.j t.weight
    if t.i ≠ t.j then writeQ M1 t.j t.i t.weight else M1) (fun _ _ => 0)

/-- `schedule @ Q @ schedule` for an integer position vector. -/
def quadForm (Q : ℕ → ℕ → ℝ) (positions : List ℕ) : ℝ :=
  ((List.range positions.length).map (fun a =>
    ((List.range positions.length).map (fun b =>
      ((positions.getD a 0 : ℕ) : ℝ) * Q a b * ((positions.getD b 0 : ℕ) : ℝ))).sum)).sum

/-- The dependency lower bound `min_slot` for task number `i`: one past
the latest already-chosen slot of any dependency appearing earlier in the
(`[:horizon]`-truncated) task list. -/
def depMinSlot (tasks' : List STask) (task : STask) (acc : List ℕ) (i : ℕ) : ℕ :=
  task.dependencies.foldl (fun m dep =>
    (withIdx 0 tasks').foldl (fun m2 jt =>
      if jt.2.id = dep ∧ jt.1 < i then max m2 (acc.getD jt.1 0 + 1) else m2) m) 0

/-- One candidate-generation attempt (the `for ... else` block): place
each task in turn on a random valid slot; `none` models the `break` taken
when no valid slot exists.  `pickSlot i` models `np.random.choice` over
the valid slots for task `i`. -/
def generateCandidate (tasks' : List STask) (horizon : ℕ) (pickSlot : ℕ → ℕ) :
    Option (List ℕ) :=
  go tasks' 0 [] (List.range horizon)
where
  go : List STask → ℕ → List ℕ → List ℕ → Option (List ℕ)
  | [], _, acc, _ => some acc
  | task :: rest, i, acc, available =>
    let minSlot := depMinSlot tasks' task acc i
    let already := ((tasks'.take i).map STask.id).zip acc
    let validSlots := available.filter (fun slot =>
      minSlot ≤ slot ∧ validate_resources (tasks'.take i) (already ++ [(task.id, slot)]))
    if validSlots = [] then none
    else
      let slot := validSlots.getD (pickSlot i % validSlots.length) 0
      go rest (i + 1) (acc ++ [slot]) (available.erase slot)

/-- The 100-attempt candidate loop, keeping the lowest-energy feasible
schedule (Python's `best_energy` starts at `inf`, so the first feasible
candidate is always kept). -/
def attemptsLoop (tasks' : List STask) (horizon : ℕ) (Q : ℕ → ℕ → ℝ)
    (pick : ℕ → ℕ → ℕ) : Option (List (String × ℕ) × ℝ) :=
  (List.range 100).foldl (fun best a =>
    match generateCandidate tasks' horizon (pick a) with
    | none => best
    | some positions =>
      let e := quadForm Q positions
      match best with
      | none => some ((tasks'.map STask.id).zip positions, e)
      | some b =>
        if e < b.2 then some ((tasks'.map STask.id).zip positions, e) else best) none

/-- The result dict of `optimize_schedule_with_reasoning`. -/
structure ScheduleResult where
  schedule : List (String × ℕ)
  objective_value : ℝ
  reasoning_influence : ℝ

/-- `optimize_schedule_with_reasoning`: empty task lists return
`{schedule: {}, objective_value: 0.0, reasoning_influence: 0.0}` before
any QUBO construction (the scheduler's `reasoning_weights` stay
untouched); otherwise build the reasoning-weighted QUBO, run the
100-attempt random search, fall back to sequential slots if no attempt
succeeded, and report the mean reasoning weight as
`reasoning_influence`.  First component of the result: the scheduler's
`reasoning_weights` after the call (task ids are assumed distinct, as the
Python dicts would otherwise silently merge entries). -/
def optimize_schedule_with_reasoning (w0 : List (String × ℝ)) (tasks : List STask)
    (horizon : ℕ) (state : QuantumReasoningState) (pick : ℕ → ℕ → ℕ) :
    List (String × ℝ) × ScheduleResult :=
  if tasks = [] then (w0, ⟨[], 0, 0⟩)
  else
    let w := computeReasoningWeights state horizon
    let terms := (build_qubo_with_reasoning state horizon).2
    let Q := matrixOfTerms terms
    let tasks' := tasks.take horizon
    let influence := if w ≠ [] then (w.map Prod.snd).sum / (w.length : ℝ) else 0
    match attemptsLoop tasks' horizon Q pick with
    | some (sched, e) =>
      if sched ≠ [] then (w, ⟨sched, e, influence⟩)
      else (w, ⟨(tasks'.map STask.id).zip (List.range tasks'.length),
        quadForm Q (List.range tasks'.length), influence⟩)
    | none => (w, ⟨(tasks'.map STask.id).zip (List.range tasks'.length),
        quadForm Q (List.range tasks'.length), influence⟩)

/-! ## `qam/qaoa_optimizer.py`

State vectors are index-functions `ℕ → ℂ` (meaningful below the vector
length, which is carried separately); `np.random.uniform` initial
parameters are explicit arguments. -/

/-- `OptimizationResult` dataclass (`parameters` flattened into
`gamma`/`beta`). -/
structure OptimizationResult where
  solution : List ℝ
  energy : ℝ
  gamma : List ℝ
  beta : List ℝ
  success : Bool
  iterations : ℕ
  history : List ℝ

/-- The `circuit_parameters` dict of `QAOAOptimizer` (defaults:
`p_steps = 2`, `learning_rate = 0.1`, `max_iterations = 100`,
`convergence_threshold = 1e-5`). -/
structure QAOAParams where
  p_steps : ℕ
  learning_rate : ℝ
  max_iterations : ℕ
  convergence_threshold : ℝ

namespace QAOAOptimizer

/-- `_create_uniform_superposition`. -/
def create_uniform_superposition (n : ℕ) : List ℂ :=
  (List.range (2 ^ n)).map (fun _ => (((1 : ℝ) / Real.sqrt ((2 : ℝ) ^ n)) : ℂ))

/-- View a concrete vector as an index-function (0 beyond the end). -/
def vecOf (l : List ℂ) : ℕ → ℂ := fun i => l.getD i 0

/-- `_apply_phase_separator`: per-basis-state phase kick from the
Hamiltonian's diagonal. -/
def apply_phase_separator (state : ℕ → ℂ) (H : ℕ → ℕ → ℂ) (γ : ℝ) : ℕ → ℂ :=
  fun i => state i * Complex.exp (-Complex.I * (γ : ℂ) * H i i)

/-- The 2×2 rotation of qubit axis `q` applied to an index: indices are
paired as `idx0` (bit `q` clear) and `idx1 = idx0 + 2^q`, exactly the
`i + j` / `idx0 + 2**q` pairs enumerated by the source's two loops. -/
def rotPair (state : ℕ → ℂ) (q : ℕ) (β : ℝ) : ℕ → ℂ := fun idx =>
  if (idx / 2 ^ q) % 2 = 0 then
    ((Real.cos β : ℝ) : ℂ) * state idx
      + (-Complex.I * ((Real.sin β : ℝ) : ℂ)) * state (idx + 2 ^ q)
  else
    (-Complex.I * ((Real.sin β : ℝ) : ℂ)) * state (idx - 2 ^ q)
      + ((Real.cos β : ℝ) : ℂ) * state idx

/-- `_apply_mixing_operator`: the source allocates one `new_state` buffer
before the qubit loop and, for each `q`, overwrites every entry of it
from the ORIGINAL `state`; the final buffer therefore holds the last
qubit's rotation of the original state (entries at or above `2^n` stay
zero).  The fold reproduces exactly that buffer-rewrite semantics. -/
def apply_mixing_operator (state : ℕ → ℂ) (n : ℕ) (β : ℝ) : ℕ → ℂ :=
  (List.range n).foldl
    (fun _acc q => fun idx => if idx < 2 ^ n then rotPair state q β idx else 0)
    (fun _ => 0)

/-- `_apply_qaoa_circuit`: `p` layers of phase separation followed by
mixing. -/
def apply_qaoa_circuit (state : ℕ → ℂ) (n : ℕ) (H : ℕ → ℕ → ℂ)
    (γ β : List ℝ) : ℕ → ℂ :=
  (γ.zip β).foldl
    (fun s gb => apply_mixing_operator (apply_phase_separator s H gb.1) n gb.2)
    state

/-- `_calculate_energy`: `Re(state* @ H @ state)` over the `dim`-sized
problem. -/
def qaoa_energy (state : ℕ → ℂ) (H : ℕ → ℕ → ℂ) (dim : ℕ) : ℝ :=
  (∑ i in Finset.range dim, ∑ j in Finset.range dim,
    (starRingEnd ℂ) (state i) * H i j * state j).re

/-- `np.clip(x, -1.0, 1.0)`. -/
def clipGrad (x : ℝ) : ℝ := min (max x (-1)) 1

/-- Perturb entry `p` of a parameter vector by `d`. -/
def perturb (l : List ℝ) (p : ℕ) (d : ℝ) : List ℝ := l.set p (l.getD p 0 + d)

/-- `_update_parameters`: central-difference gradients (`eps = 1e-7`)
re-running the circuit from the current (evolved) state, clipped to
`[-1, 1]`, applied with learning rate `0.1 * learning_rate`. -/
def update_parameters (params : QAOAParams) (γ β : List ℝ) (H : ℕ → ℕ → ℂ)
    (state : ℕ → ℂ) (n dim : ℕ) : List ℝ × List ℝ :=
  let lr := params.learning_rate * (1 / 10)
  let eps : ℝ := 1 / 10 ^ 7
  let gammaGrad : ℕ → ℝ := fun p =>
    (qaoa_energy (apply_qaoa_circuit state n H (perturb γ p eps) β) H dim
      - qaoa_energy (apply_qaoa_circuit state n H (perturb γ p (-eps)) β) H dim)
      / (2 * eps)
  let betaGrad : ℕ → ℝ := fun p =>
    (qaoa_energy (apply_qaoa_circuit state n H γ (perturb β p eps)) H dim
      - qaoa_energy (apply_qaoa_circuit state n H γ (perturb β p (-eps))) H dim)
      / (2 * eps)
  ((List.range γ.length).map (fun p => γ.getD p 0 - lr * clipGrad (gammaGrad p)),
   (List.range β.length).map (fun p => β.getD p 0 - lr * clipGrad (betaGrad p)))

/-- Scan of `np.argmax`: keep the first index whose value strictly
exceeds the best so far. -/
def argmaxAux : List ℝ → ℕ → ℕ → ℝ → ℕ
  | [], _, best, _ => best
  | x :: xs, i, best, bv =>
    if bv < x then argmaxAux xs (i + 1) i x else argmaxAux xs (i + 1) best bv

/-- `np.argmax` over a list (first index of the maximum; 0 on empty
input). -/
def argmaxIdx : List ℝ → ℕ
  | [] => 0
  | x :: xs => argmaxAux xs 1 0 x

/-- `_measure_state`: the one-hot row of `np.eye(len(state))` at the
index of maximum `|amplitude|**2` — a pure function of the state vector
(deterministic argmax, no sampling). -/
def measure_state (state : List ℂ) : List ℝ :=
  (List.range state.length).map (fun i =>
    if i = argmaxIdx (state.map Complex.normSq) then 1 else 0)

/-- The `for iteration in range(max_iterations)` loop of `optimize`.
State: `(gamma, beta, current_state, energies)`.  On convergence
(`iteration > 0` and `|ΔE| < threshold`) the loop breaks with
`current_state` NOT updated, mirroring the source's `break` before the
`current_state = evolved_state` line. -/
def optimizeLoop (params : QAOAParams) (H : ℕ → ℕ → ℂ) (dim n : ℕ) :
    ℕ → List ℝ × List ℝ × (ℕ → ℂ) × List ℝ → List ℝ × List ℝ × (ℕ → ℂ) × List ℝ
  | 0, st => st
  | fuel + 1, (γ, β, cur, energies) =>
    let evolved := apply_qaoa_circuit cur n H γ β
    let e := qaoa_energy evolved H dim
    let energies' := energies ++ [e]
    if energies ≠ [] ∧ |e - energies.getLastD 0| < params.convergence_threshold then
      (γ, β, cur, energies')
    else
      let gb := update_parameters params γ β H evolved n dim
      optimizeLoop params H dim n fuel (gb.1, gb.2, evolved, energies')

/-- `optimize`: `n_qubits = int(log2(dim))`, uniform superposition if no
initial state, at most `max_iterations` loop iterations, then the
deterministic measurement.  `energy = energies[-1]` is modelled with
default 0 (Python would raise `IndexError` when `max_iterations == 0`).
`success = len(energies) < max_iterations`, `iterations = len(energies)`,
`history = energies`. -/
def optimize (params : QAOAParams) (H : ℕ → ℕ → ℂ) (dim : ℕ)
    (γ0 β0 : List ℝ) (initial_state : Option (List ℂ)) : OptimizationResult :=
  let n := Nat.log 2 dim
  let init := initial_state.getD (create_uniform_superposition n)
  let r := optimizeLoop params H dim n params.max_iterations (γ0, β0, vecOf init, [])
  let energies := r.2.2.2
  ⟨measure_state ((List.range init.length).map r.2.2.1),
   energies.getLastD 0,
   r.1, r.2.1,
   decide (energies.length < params.max_iterations),
   energies.length,
   energies⟩

end QAOAOptimizer

/-! ## `qam/hierarchical_qubo.py`

Numpy matrices become index-functions with an explicit dimension; the
in-place assembly of `combined_matrix` becomes a fold of single-entry
writes so that the source's overwrite (`=` for connection blocks) versus
accumulate (`+=` for constraint terms) semantics is preserved. -/

/-- `QUBOLevel` dataclass.  `dim` is `matrix.shape[0]` (`add_level`
validates squareness and that `len(variables) == dim`); the `variables`
field is called `vars` here because `variables` is a Lean command
name. -/
structure QUBOLevel where
  dim : ℕ
  matrix : ℕ → ℕ → ℝ
  vars : List String
  constraints : List (String × ℝ)
  weight : ℝ

instance : Inhabited QUBOLevel := ⟨⟨0, fun _ _ => 0, [], [], 0⟩⟩

/-- The `HierarchicalQUBO` object: levels, connections and the
`optimization_parameters` dict. -/
structure HierarchicalQUBO where
  levels : List QUBOLevel
  connections : List (ℕ × ℕ × ℝ)
  inter_level_weight : ℝ
  constraint_weight : ℝ
  convergence_threshold : ℝ
  max_iterations : ℕ

/-- The freshly constructed composer (`inter_level_weight = 0.5`,
`constraint_weight = 10.0`, `convergence_threshold = 1e-6`,
`max_iterations = 1000`; `convergence_threshold` is never read by
`_solve_qubo`). -/
def initHQ : HierarchicalQUBO := ⟨[], [], 1 / 2, 10, 1 / 10 ^ 6, 1000⟩

namespace HierarchicalQUBO

/-- `var_name in level.constraints` / `level.constraints[var_name]`. -/
def constraintLookup (cs : List (String × ℝ)) (name : String) : Option ℝ :=
  match cs with
  | [] => none
  | (k, v) :: rest => if k = name then some v else constraintLookup rest name

/-- `add_level`: reject non-square matrices and variable lists whose
length differs from the matrix rank; default variable names `x<i>` and
empty constraints; returns the new level's index. -/
def add_level (h : HierarchicalQUBO) (matrix : ℕ → ℕ → ℝ) (rows cols : ℕ)
    (variableNames : Option (List String)) (constraints : Option (List (String × ℝ)))
    (weight : ℝ) : Except String (HierarchicalQUBO × ℕ) :=
  if rows ≠ cols then .error "QUBO matrix must be square"
  else
    let vars := variableNames.getD ((List.range rows).map (fun i => "x" ++ toString i))
    if vars.length ≠ rows then .error "Number of variables must match matrix dimensions"
    else .ok ({ h with levels := h.levels ++ [⟨rows, matrix, vars, constraints.getD [], weight⟩] },
      h.levels.length)

/-- `add_connection`: out-of-range indices and duplicate connections
return `false` without modifying anything. -/
def add_connection (h : HierarchicalQUBO) (l1 l2 : ℕ) (w : ℝ) :
    HierarchicalQUBO × Bool :=
  if l1 < h.levels.length ∧ l2 < h.levels.length then
    if (l1, l2, w) ∈ h.connections then (h, false)
    else ({ h with connections := h.connections ++ [(l1, l2, w)] }, true)
  else (h, false)

/-- `_calculate_offsets`: the block offset of level `idx`. -/
def offsetOf (levels : List QUBOLevel) (idx : ℕ) : ℕ :=
  ((levels.take idx).map QUBOLevel.dim).sum

/-- `combined_matrix[r, c] += v`. -/
def addQ (M : ℕ → ℕ → ℝ) (r c : ℕ) (v : ℝ) : ℕ → ℕ → ℝ :=
  writeQ M r c (M r c + v)

/-- The block-diagonal placement
`combined_matrix[offset:offset+size, offset:offset+size] = matrix * weight`. -/
def fillLevelBlocks (levels : List QUBOLevel) : ℕ → ℕ → ℝ :=
  (withIdx 0 levels).foldl (fun M il =>
    (List.range il.2.dim).foldl (fun M1 i =>
      (List.range il.2.dim).foldl (fun M2 j =>
        writeQ M2 (offsetOf levels il.1 + i) (offsetOf levels il.1 + j)
          (il.2.matrix i j * il.2.weight)) M1) M) (fun _ _ => 0)

/-- `_add_connection_terms`: write the symmetric coupling weight
`connection.weight * inter_level_weight` on every variable pair of the
two connected levels (plain assignment, matching the source's `=`). -/
def applyConnection (levels : List QUBOLevel) (ilw : ℝ) (M : ℕ → ℕ → ℝ)
    (c : ℕ × ℕ × ℝ) : ℕ → ℕ → ℝ :=
  let lvl1 := levels.getD c.1 default
  let lvl2 := levels.getD c.2.1 default
  let cw := c.2.2 * ilw
  (List.range lvl1.dim).foldl (fun M1 i =>
    (List.range lvl2.dim).foldl (fun M2 j =>
      writeQ (writeQ M2 (offsetOf levels c.1 + i) (offsetOf levels c.2.1 + j) cw)
        (offsetOf levels c.2.1 + j) (offsetOf levels c.1 + i) cw) M1) M

/-- `_add_constraint_terms`: for every constrained variable, `+=
constraint_weight * 2` and `-= constraint_weight * 2 * target` on its
diagonal entry. -/
def applyConstraintTerms (levels : List QUBOLevel) (cw : ℝ)
    (M0 : ℕ → ℕ → ℝ) : ℕ → ℕ → ℝ :=
  (withIdx 0 levels).foldl (fun M il =>
    (withIdx 0 il.2.vars).foldl (fun M1 vn =>
      match constraintLookup il.2.constraints vn.2 with
      | some target =>
        addQ (addQ M1 (offsetOf levels il.1 + vn.1) (offsetOf levels il.1 + vn.1) (cw * 2))
          (offsetOf levels il.1 + vn.1) (offsetOf levels il.1 + vn.1) (-(cw * 2 * target))
      | none => M1) M) M0

/-- The combined QUBO matrix assembled by `optimize`. -/
def combinedMatrix (h : HierarchicalQUBO) : ℕ → ℕ → ℝ :=
  applyConstraintTerms h.levels h.constraint_weight
    (h.connections.foldl (applyConnection h.levels h.inter_level_weight)
      (fillLevelBlocks h.levels))

/-- Total number of variables across levels. -/
def combinedSize (h : HierarchicalQUBO) : ℕ := (h.levels.map QUBOLevel.dim).sum

/-- `solution[i] = v`. -/
def writeSol (sol : ℕ → ℝ) (i : ℕ) (v : ℝ) : ℕ → ℝ :=
  fun j => if j = i then v else sol j

/-- The seeded initial solution of `_solve_qubo`: each constrained
variable gets its target value, every other variable a random bit
(`np.random.randint(0, 2)`, modelled as a stream indexed by position). -/
def seedSolution (h : HierarchicalQUBO) (rand : ℕ → Fin 2) : ℕ → ℝ :=
  (withIdx 0 h.levels).foldl (fun sol il =>
    (withIdx 0 il.2.vars).foldl (fun sol1 vn =>
      writeSol sol1 (offsetOf h.levels il.1 + vn.1)
        (match constraintLookup il.2.constraints vn.2 with
         | some t => t
         | none => ((rand (offsetOf h.levels il.1 + vn.1) : ℕ) : ℝ))) sol)
    (fun _ => 0)

/-- `solution @ matrix @ solution`. -/
def solEnergy (M : ℕ → ℕ → ℝ) (n : ℕ) (sol : ℕ → ℝ) : ℝ :=
  ((List.range n).map (fun a =>
    ((List.range n).map (fun b => sol a * M a b * sol b)).sum)).sum

/-- One greedy pass of `_solve_qubo`: try flipping every UNCONSTRAINED
variable, keep the flip exactly when the energy strictly decreases.
State: `(solution, energy, improved)`. -/
def hqSweep (h : HierarchicalQUBO) (M : ℕ → ℕ → ℝ) (n : ℕ)
    (st : (ℕ → ℝ) × ℝ × Bool) : (ℕ → ℝ) × ℝ × Bool :=
  (withIdx 0 h.levels).foldl (fun st1 il =>
    (withIdx 0 il.2.vars).foldl (fun st2 vn =>
      match constraintLookup il.2.constraints vn.2 with
      | some _ => st2
      | none =>
        let pos := offsetOf h.levels il.1 + vn.1
        let sol' := writeSol st2.1 pos (1 - st2.1 pos)
        let e' := solEnergy M n sol'
        if e' < st2.2.1 then (sol', e', true) else st2) st1) st

/-- The `for _ in range(max_iterations)` loop with its
`if not improved: break`. -/
def hqLoop (h : HierarchicalQUBO) (M : ℕ → ℕ → ℝ) (n : ℕ) :
    ℕ → (ℕ → ℝ) × ℝ → (ℕ → ℝ) × ℝ
  | 0, se => se
  | fuel + 1, se =>
    let r := hqSweep h M n (se.1, se.2, false)
    if r.2.2 then hqLoop h M n fuel (r.1, r.2.1) else (r.1, r.2.1)

/-- `_solve_qubo`: seed with constraints and random bits, then greedy
local search over the unconstrained variables. -/
def solve_qubo (h : HierarchicalQUBO) (M : ℕ → ℕ → ℝ) (rand : ℕ → Fin 2) : ℕ → ℝ :=
  let sol := seedSolution h rand
  (hqLoop h M (combinedSize h) h.max_iterations (sol, solEnergy M (combinedSize h) sol)).1

/-- `optimize`: empty composer yields `{}`; otherwise build the combined
matrix, solve, and slice the solution back per level (the dict key
`"level_i"` is the list position here). -/
def optimize (h : HierarchicalQUBO) (rand : ℕ → Fin 2) : List (List ℝ) :=
  if h.levels = [] then []
  else
    let M := combinedMatrix h
    let sol := solve_qubo h M rand
    (withIdx 0 h.levels).map (fun il =>
      (List.range il.2.dim).map (fun k => sol (offsetOf h.levels il.1 + k)))

end HierarchicalQUBO

/-! ## The §4.1 QUBO Term Builder (absent from `src/`)

`qam/crew_interface.py` imports `Task`, `Agent`, `QUBOScheduler.build_qubo`
and `decode_variable_index` from `qam.scheduler`, but the module in `src/`
no longer defines them; only this caller and the spec describe the
task/agent/window term builder.  The exactly-one-assignment encoding is
therefore modelled from the spec. -/

/-- A QUBO term of the modelled builder, with integer coefficient
(the encoding only uses `-1` and `+2`). -/
structure SpecTerm where
  i : ℕ
  j : ℕ
  c : ℤ
deriving DecidableEq

/-- Modelled from the spec: the exactly-one-assignment terms of the §4.1
QUBO Term Builder (`build(tasks, agents, horizon, makespan_weight)`),
which is missing from `src/qam/scheduler.py` (only its caller
`crew_interface.py` remains).  For one task whose variables across
agents/windows carry the dense indices `0..n-1`: a linear term `-1` per
variable and a quadratic term `+2` per unordered pair. -/
def exactlyOneTerms (n : ℕ) : List SpecTerm :=
  (List.range n).map (fun v => ⟨v, v, -1⟩)
    ++ (List.range n).flatMap (fun v =>
        (List.range (n - v - 1)).map (fun d => ⟨v, v + d + 1, 2⟩))

/-- QUBO energy of a bit assignment under the modelled terms (linear
terms count `c * x_i`, quadratic terms `c * x_i * x_j`, exactly as the
scheduler's `_calculate_energy`). -/
def specEnergy (terms : List SpecTerm) (x : ℕ → Bool) : ℤ :=
  terms.foldl (fun e t =>
    if t.i = t.j then e + t.c * (if x t.i then 1 else 0)
    else e + t.c * (if x t.i then 1 else 0) * (if x t.j then 1 else 0)) 0

/-- Decision path used in concrete instances below. -/
def pWitA : DecisionPath := ⟨"a", 1, []⟩

/-- Second decision path (distinct id) used in concrete instances below. -/
def pWitB : DecisionPath := ⟨"b", 1, []⟩

/-- Mutation sequence refuting the literal C1 tolerance: add amplitude 1,
then add amplitude `1/1000` on a second path.  The total becomes
`1 + 1e-6`, which `np.isclose(total, 1.0, atol=1e-10)` (with default
`rtol = 1e-5`) accepts, so no renormalization happens. -/
def opsC1 : List ROp := [ROp.add pWitA 1, ROp.add pWitB (((1 / 1000 : ℝ)) : ℂ)]

/-- A one-variable level with the constraint `x0 = 1`, for the witness
below. -/
def witLevel : QUBOLevel := ⟨1, fun _ _ => 0, ["x0"], [("x0", 1)], 1⟩

/-- A composer holding just `witLevel`. -/
def witHQ : HierarchicalQUBO := ⟨[witLevel], [], 1 / 2, 10, 1 / 10 ^ 6, 1000⟩

lemma normSqTotal_nonneg (l : List (DecisionPath × ℂ)) : 0 ≤ normSqTotal l := by
  refine List.sum_nonneg ?_
  intro x hx
  rcases List.mem_map.1 hx with ⟨pa, _, rfl⟩
  exact Complex.normSq_nonneg _

lemma normSqTotal_smul (l : List (DecisionPath × ℂ)) (c : ℝ) :
    normSqTotal (l.map (fun pa => (pa.1, ((c : ℝ) : ℂ) * pa.2))) = c ^ 2 * normSqTotal l := by
  induction l with
  | nil => simp [normSqTotal]
  | cons hd tl ih =>
    simp only [normSqTotal, List.map_cons, List.sum_cons] at *
    rw [ih]
    simp [Complex.normSq_mul, Complex.normSq_ofReal]
    ring

lemma validate_state_empty_iff (s : QuantumReasoningState) :
    (validate_state s).amplitudes = [] ↔ s.amplitudes = [] := by
  unfold validate_state
  dsimp only
  split
  · simp
  · simp

lemma validate_state_keys (s : QuantumReasoningState) :
    (validate_state s).amplitudes.map Prod.fst = s.amplitudes.map Prod.fst := by
  unfold validate_state
  dsimp only
  split
  · simp [List.map_map, Function.comp]
  · rfl

lemma iscloseBand_pos : (0 : ℝ) < iscloseBand := by
  unfold iscloseBand; norm_num

lemma validate_state_band (s : QuantumReasoningState)
    (hne : s.amplitudes ≠ [])
    (h : normSqTotal s.amplitudes ≠ 0 ∨ |normSqTotal s.amplitudes - 1| ≤ iscloseBand) :
    |normSqTotal (validate_state s).amplitudes - 1| ≤ iscloseBand := by
  unfold validate_state
  dsimp only
  by_cases hband : |normSqTotal s.amplitudes - 1| ≤ iscloseBand
  · rw [if_neg (by intro hc; exact hc.2 hband)]
    exact hband
  · rw [if_pos ⟨hne, hband⟩]
    have ht0 : normSqTotal s.amplitudes ≠ 0 := by
      rcases h with h1 | h2
      · exact h1
      · exact absurd h2 hband
    have htpos : 0 < normSqTotal s.amplitudes :=
      lt_of_le_of_ne (normSqTotal_nonneg _) (Ne.symm ht0)
    simp only
    rw [normSqTotal_smul]
    have hsq : (1 / Real.sqrt (normSqTotal s.amplitudes)) ^ 2
        = 1 / normSqTotal s.amplitudes := by
      rw [div_pow, one_pow, Real.sq_sqrt htpos.le]
    rw [hsq, one_div, inv_mul_cancel₀ ht0]
    simpa using iscloseBand_pos.le

lemma assocUpdate_ne_nil (l : List (DecisionPath × ℂ)) (p : DecisionPath) (a : ℂ) :
    assocUpdate l p a ≠ [] := by
  cases l with
  | nil => simp [assocUpdate]
  | cons hd tl =>
    unfold assocUpdate
    rcases hd with ⟨q, b⟩
    split <;> simp

lemma withIdx_map_snd (l : List α) : ∀ i, (withIdx i l).map Prod.snd = l := by
  induction l with
  | nil => intro i; simp [withIdx]
  | cons hd tl ih => intro i; simp [withIdx, ih]

lemma withIdx_length (l : List α) : ∀ i, (withIdx i l).length = l.length := by
  induction l with
  | nil => intro i; simp [withIdx]
  | cons hd tl ih => intro i; simp [withIdx, ih]

lemma evolveCore_keys (s : QuantumReasoningState) (m : ℕ) (H : ℕ → ℕ → ℂ) :
    (evolveCore s m H).map Prod.fst = sortedPaths s.amplitudes := by
  unfold evolveCore
  rw [List.map_map]
  exact withIdx_map_snd _ 0

lemma evolveCore_ne_nil (s : QuantumReasoningState) (m : ℕ) (H : ℕ → ℕ → ℂ)
    (hne : s.amplitudes ≠ []) : evolveCore s m H ≠ [] := by
  intro hc
  have hk := congrArg List.length (evolveCore_keys s m H)
  rw [hc] at hk
  simp [sortedPaths, List.length_insertionSort] at hk
  exact hne (List.eq_nil_of_length_eq_zero hk.symm)

/-- Normalization state invariant: empty, or squared-amplitude total
within the `np.isclose` band of 1. -/
def StateInv (s : QuantumReasoningState) : Prop :=
  s.amplitudes = [] ∨ |normSqTotal s.amplitudes - 1| ≤ iscloseBand

lemma applyROp_inv (s : QuantumReasoningState) (op : ROp)
    (hinv : StateInv s) (hok : preOk s op) : StateInv (applyROp s op) := by
  cases op with
  | add p a =>
    right
    exact validate_state_band _ (assocUpdate_ne_nil _ _ _) (Or.inl hok)
  | evolve m H =>
    show StateInv (Qam.evolve s m H)
    unfold Qam.evolve
    split
    · exact hinv
    · next hcond =>
      push_neg at hcond
      right
      refine validate_state_band _ (evolveCore_ne_nil s m H hcond.1) (Or.inl ?_)
      rcases hok with h1 | h2 | h3
      · exact absurd h1 hcond.1
      · exact absurd h2 hcond.2
      · exact h3

lemma runROps_inv (ops : List ROp) : ∀ s : QuantumReasoningState,
    StateInv s → goodTrace s ops → StateInv (runROps s ops) := by
  induction ops with
  | nil => intro s h _; exact h
  | cons op rest ih =>
    intro s hinv hg
    exact ih _ (applyROp_inv s op hinv hg.1) hg.2

/-- C1 (amended): for every sequence of `add_decision_path`/`evolve` calls
on a fresh `QuantumReasoningState` in which every renormalization sees a
nonzero pre-normalization total, the resulting non-empty state has
Σ|amplitude|² within `1e-10 + 1e-5` of 1 (the `np.isclose(total, 1.0,
atol=1e-10)` acceptance band, whose dominant term is numpy's default
relative tolerance `rtol = 1e-5`).  The claimed tolerances 1e-9 / 1e-10 do
not hold, because totals anywhere inside this band are left
unrenormalized. -/
theorem c1_normalization_invariant (ops : List ROp)
    (h : goodTrace initState ops)
    (hne : (runROps initState ops).amplitudes ≠ []) :
    |normSqTotal (runROps initState ops).amplitudes - 1| ≤ iscloseBand := by
  rcases runROps_inv ops initState (Or.inl rfl) h with h1 | h2
  · exact absurd h1 hne
  · exact h2

/-- Witness for `c1_normalization_invariant`: one `add_decision_path` call
with amplitude 1. -/
theorem c1_normalization_invariant_witness :
    goodTrace initState [ROp.add pWitA 1] ∧
    (runROps initState [ROp.add pWitA 1]).amplitudes ≠ [] ∧
    |normSqTotal (runROps initState [ROp.add pWitA 1]).amplitudes - 1| ≤ iscloseBand := by
  have hg : goodTrace initState [ROp.add pWitA 1] := by
    refine ⟨?_, trivial⟩
    show normSqTotal (assocUpdate initState.amplitudes pWitA 1) ≠ 0
    simp [initState, assocUpdate, normSqTotal]
  have hrun : runROps initState [ROp.add pWitA 1]
      = validate_state ⟨[(pWitA, 1)], []⟩ := rfl
  have hval : validate_state ⟨[(pWitA, 1)], []⟩
      = ⟨[(pWitA, (1 : ℂ))], []⟩ := by
    unfold validate_state
    dsimp only
    rw [if_neg]
    intro hc
    refine hc.2 ?_
    have : normSqTotal [(pWitA, (1 : ℂ))] = 1 := by simp [normSqTotal]
    rw [this]
    simpa using iscloseBand_pos.le
  have hne : (runROps initState [ROp.add pWitA 1]).amplitudes ≠ [] := by
    rw [hrun, hval]; simp
  exact ⟨hg, hne, c1_normalization_invariant [ROp.add pWitA 1] hg hne⟩

/-- Counterexample to C1 as stated: after `opsC1` the state is non-empty
but Σ|amplitude|² = 1 + 1e-6, farther than 1e-9 (a fortiori 1e-10)
from 1. -/
theorem c1_normalization_claim_counterexample :
    (runROps initState opsC1).amplitudes ≠ [] ∧
    ¬ |normSqTotal (runROps initState opsC1).amplitudes - 1| ≤ 1 / 10 ^ 9 := by
  have hAB : pWitA ≠ pWitB := by
    intro h
    have := congrArg DecisionPath.id h
    simp [pWitA, pWitB] at this
  have step1 : applyROp initState (ROp.add pWitA 1)
      = ⟨[(pWitA, (1 : ℂ))], []⟩ := by
    show validate_state ⟨assocUpdate [] pWitA 1, []⟩ = _
    unfold assocUpdate validate_state
    dsimp only
    rw [if_neg]
    intro hc
    refine hc.2 ?_
    have : normSqTotal [(pWitA, (1 : ℂ))] = 1 := by simp [normSqTotal]
    rw [this]
    simpa using iscloseBand_pos.le
  have halg : normSqTotal [(pWitA, (1 : ℂ)), (pWitB, (((1 / 1000 : ℝ)) : ℂ))]
      = 1 + 1 / 10 ^ 6 := by
    simp [normSqTotal, Complex.normSq_ofReal]
    norm_num
  have step2 : runROps initState opsC1
      = ⟨[(pWitA, (1 : ℂ)), (pWitB, (((1 / 1000 : ℝ)) : ℂ))], []⟩ := by
    show runROps (applyROp initState (ROp.add pWitA 1)) [ROp.add pWitB _] = _
    rw [step1]
    show validate_state ⟨assocUpdate [(pWitA, 1)] pWitB _, []⟩ = _
    unfold assocUpdate
    rw [if_neg hAB]
    unfold assocUpdate validate_state
    dsimp only
    rw [if_neg]
    intro hc
    rw [halg] at hc
    refine hc.2 ?_
    rw [show (1 : ℝ) + 1 / 10 ^ 6 - 1 = 1 / 10 ^ 6 by ring]
    rw [abs_of_pos (by norm_num)]
    unfold iscloseBand
    norm_num
  rw [step2]
  refine ⟨by simp, ?_⟩
  rw [halg]
  rw [show (1 : ℝ) + 1 / 10 ^ 6 - 1 = 1 / 10 ^ 6 by ring]
  rw [abs_of_pos (by norm_num)]
  norm_num

/-- C9: `evolve` never adds or removes decision paths — for every state
and every Hamiltonian dimension (smaller, equal or larger than the number
of paths), the keys of the amplitude map after `evolve` are a permutation
of the keys before (components of the padded vector beyond the existing
paths are discarded). -/
theorem c9_evolve_preserves_paths (s : QuantumReasoningState) (m : ℕ)
    (H : ℕ → ℕ → ℂ) :
    ((evolve s m H).amplitudes.map Prod.fst).Perm (s.amplitudes.map Prod.fst) := by
  unfold evolve
  split
  · exact List.Perm.refl _
  · dsimp only
    rw [validate_state_keys, evolveCore_keys]
    exact List.perm_insertionSort _ _

lemma measureProbs_sum (s : QuantumReasoningState) :
    (measureProbs s).sum = normSqTotal s.amplitudes / normSqTotal s.amplitudes := by
  unfold measureProbs normSqTotal
  dsimp only
  rw [show (fun x : ℝ => x / ((s.amplitudes.map fun pa => Complex.normSq pa.2)).sum)
      = (fun x : ℝ => x * (((s.amplitudes.map fun pa => Complex.normSq pa.2)).sum)⁻¹)
      from funext fun x => div_eq_mul_inv x _]
  rw [show ((s.amplitudes.map fun pa => Complex.normSq pa.2).map
        fun x : ℝ => x * (((s.amplitudes.map fun pa => Complex.normSq pa.2)).sum)⁻¹)
      = ((s.amplitudes.map fun pa => Complex.normSq pa.2).map
        fun x : ℝ => id x * (((s.amplitudes.map fun pa => Complex.normSq pa.2)).sum)⁻¹)
      from rfl]
  rw [List.sum_map_mul_right]
  simp [div_eq_mul_inv]

/-- C5 (amended): `measure` raises the empty-state error exactly when the
state has no paths; on a non-empty state whose squared-amplitude total is
nonzero, it returns the path at the sampler's index (a path of the state)
and collapses the state to that single path with amplitude 1.  (A
non-empty state whose amplitudes are all zero instead trips
`np.random.choice`'s probability-vector validation — a different error.) -/
theorem c5_measure_spec (s : QuantumReasoningState) (pick : List ℝ → ℕ)
    (hpick : s.amplitudes ≠ [] → pick (measureProbs s) < s.amplitudes.length) :
    (measure s pick = .error .emptyState ↔ s.amplitudes = []) ∧
    (s.amplitudes ≠ [] → normSqTotal s.amplitudes ≠ 0 →
      ∃ p, measure s pick = .ok (p, ⟨[(p, (1 : ℂ))], s.history⟩) ∧
        p ∈ s.amplitudes.map Prod.fst) := by
  by_cases hs : s.amplitudes = []
  · constructor
    · unfold measure
      rw [if_pos hs]
      simp [hs]
    · intro hne; exact absurd hs hne
  · have hlen : pick (measureProbs s) < s.amplitudes.length := hpick hs
    have hget : s.amplitudes.get? (pick (measureProbs s))
        = some (s.amplitudes.get ⟨pick (measureProbs s), hlen⟩) :=
      List.get?_eq_get hlen
    by_cases ht : normSqTotal s.amplitudes = 0
    · have hsum : (measureProbs s).sum = 0 := by
        rw [measureProbs_sum, ht]
        simp
      have hbad : ¬ |(measureProbs s).sum - 1| ≤ choiceAtol := by
        rw [hsum]
        rw [show |(0 : ℝ) - 1| = 1 by simp]
        unfold choiceAtol
        norm_num
      have herr : measure s pick = .error .invalidDistribution := by
        unfold measure
        rw [if_neg hs]
        dsimp only
        rw [if_pos hbad]
      constructor
      · rw [herr]
        simp [hs]
      · intro _ ht'
        exact absurd ht ht'
    · have hsum : (measureProbs s).sum = 1 := by
        rw [measureProbs_sum]
        exact div_self ht
      have hgood : ¬ ¬ |(measureProbs s).sum - 1| ≤ choiceAtol := by
        rw [hsum]
        simp only [sub_self, abs_zero, not_not]
        unfold choiceAtol
        norm_num
      have hok : measure s pick
          = .ok ((s.amplitudes.get ⟨pick (measureProbs s), hlen⟩).1,
              validate_state ⟨[((s.amplitudes.get ⟨pick (measureProbs s), hlen⟩).1, (1 : ℂ))],
                s.history⟩) := by
        unfold measure
        rw [if_neg hs]
        dsimp only
        rw [if_neg hgood, hget]
      have hval : validate_state ⟨[((s.amplitudes.get ⟨pick (measureProbs s), hlen⟩).1, (1 : ℂ))],
          s.history⟩ = ⟨[((s.amplitudes.get ⟨pick (measureProbs s), hlen⟩).1, (1 : ℂ))],
          s.history⟩ := by
        unfold validate_state
        dsimp only
        rw [if_neg]
        intro hc
        refine hc.2 ?_
        have h1 : normSqTotal [((s.amplitudes.get ⟨pick (measureProbs s), hlen⟩).1, (1 : ℂ))]
            = 1 := by simp [normSqTotal]
        rw [h1]
        simpa using iscloseBand_pos.le
      constructor
      · rw [hok]
        simp [hs]
      · intro _ _
        refine ⟨(s.amplitudes.get ⟨pick (measureProbs s), hlen⟩).1, ?_, ?_⟩
        · rw [hok, hval]
        · exact List.mem_map_of_mem Prod.fst (s.amplitudes.get_mem _ _)

/-- Witness for `c5_measure_spec` at a concrete one-path state with a
constant sampler. -/
theorem c5_measure_spec_witness :
    (measure ⟨[(pWitA, (1 : ℂ))], []⟩ (fun _ => 0) = .error .emptyState ↔
      (⟨[(pWitA, (1 : ℂ))], []⟩ : QuantumReasoningState).amplitudes = []) ∧
    ((⟨[(pWitA, (1 : ℂ))], []⟩ : QuantumReasoningState).amplitudes ≠ [] →
      normSqTotal (⟨[(pWitA, (1 : ℂ))], []⟩ : QuantumReasoningState).amplitudes ≠ 0 →
      ∃ p, measure ⟨[(pWitA, (1 : ℂ))], []⟩ (fun _ => 0)
          = .ok (p, ⟨[(p, (1 : ℂ))], []⟩) ∧
        p ∈ (⟨[(pWitA, (1 : ℂ))], []⟩ : QuantumReasoningState).amplitudes.map Prod.fst) :=
  c5_measure_spec ⟨[(pWitA, (1 : ℂ))], []⟩ (fun _ => 0) (by intro h; simp)

/-- Counterexample to C5 as stated: the non-empty all-zero-amplitude state
(reachable via `add_decision_path(path, 0)`) makes `measure` fail inside
`np.random.choice`'s probability validation instead of returning a path —
the "otherwise returns a sampled path" half of the claim is false. -/
theorem c5_measure_claim_counterexample :
    ((⟨[(pWitA, (0 : ℂ))], []⟩ : QuantumReasoningState).amplitudes ≠ []) ∧
    measure ⟨[(pWitA, (0 : ℂ))], []⟩ (fun _ => 0)
      = .error .invalidDistribution := by
  refine ⟨by simp, ?_⟩
  rw [measure, if_neg (by simp)]
  dsimp only
  rw [if_pos]
  have hp : measureProbs ⟨[(pWitA, (0 : ℂ))], []⟩ = [0] := by
    simp [measureProbs]
  rw [hp]
  intro hc
  have : |(0 : ℝ) - 1| ≤ choiceAtol := by simpa using hc
  rw [show |(0 : ℝ) - 1| = 1 by simp] at this
  unfold choiceAtol at this
  norm_num at this

lemma foldl_preserve {α : Type _} {β : Type _} (P : α → Prop) (f : α → β → α) :
    ∀ (l : List β) (a : α), (∀ a' b, b ∈ l → P a' → P (f a' b)) → P a → P (l.foldl f a) := by
  intro l
  induction l with
  | nil => intro a _ ha; exact ha
  | cons x xs ih =>
    intro a hstep ha
    exact ih (f a x) (fun a' b hb => hstep a' b (List.mem_cons_of_mem _ hb))
      (hstep a x (List.mem_cons_self _ _) ha)

/-- Invariant of the greedy sweep: the tracked energy is the energy of
the tracked solution, and it never exceeds the starting energy. -/
def SweepInv (terms : List QUBOTerm) (e0 : ℝ) (st : (ℕ → ℝ) × ℝ × Bool) : Prop :=
  st.2.1 = calculate_energy st.1 terms ∧ st.2.1 ≤ e0

lemma classicalSweep_inv (terms : List QUBOTerm) (size : ℕ) (e0 : ℝ)
    (st : (ℕ → ℝ) × ℝ × Bool) (h : SweepInv terms e0 st) :
    SweepInv terms e0 (classicalSweep terms size st) := by
  unfold classicalSweep
  refine foldl_preserve (SweepInv terms e0) _ (List.range size) st ?_ h
  intro a' b _ ha'
  dsimp only
  split
  · next hlt => exact ⟨rfl, le_of_lt (lt_of_lt_of_le (ha'.1 ▸ hlt) ha'.2)⟩
  · exact ha'

lemma classicalLoop_energy (terms : List QUBOTerm) (size : ℕ) :
    ∀ (fuel : ℕ) (se : (ℕ → ℝ) × ℝ), se.2 = calculate_energy se.1 terms →
      (classicalLoop terms size fuel se).2
          = calculate_energy (classicalLoop terms size fuel se).1 terms ∧
        (classicalLoop terms size fuel se).2 ≤ se.2 := by
  intro fuel
  induction fuel with
  | zero => intro se h; exact ⟨h, le_refl _⟩
  | succ fuel ih =>
    intro se h
    have hsw : SweepInv terms se.2 (classicalSweep terms size (se.1, se.2, false)) :=
      classicalSweep_inv terms size se.2 (se.1, se.2, false) ⟨h, le_refl _⟩
    rcases hsw with ⟨h1, h2⟩
    simp only [classicalLoop]
    split
    · have := ih ((classicalSweep terms size (se.1, se.2, false)).1,
        (classicalSweep terms size (se.1, se.2, false)).2.1) h1
      exact ⟨this.1, le_trans this.2 h2⟩
    · exact ⟨h1, h2⟩

/-- C3: any failure of the external quantum submission or of result
parsing makes `_solve_quantum` return the classical greedy solution (the
embedding is a total function — nothing propagates to the caller), and
the classical solver's result never has higher QUBO energy than the
random initial solution it started from, for every fuel bound on the
greedy `while` loop. -/
theorem c3_quantum_fallback (terms : List QUBOTerm) (size : ℕ)
    (randBits : ℕ → Fin 2) (fuel : ℕ) :
    solve_quantum .raised terms size randBits fuel
        = solve_classical terms size randBits fuel ∧
    (∀ sols, parseQuantumResult sols size = none →
      solve_quantum (.returned sols) terms size randBits fuel
        = solve_classical terms size randBits fuel) ∧
    calculate_energy (solve_classical terms size randBits fuel) terms
      ≤ calculate_energy (initialSolution randBits) terms := by
  refine ⟨rfl, ?_, ?_⟩
  · intro sols h
    simp only [solve_quantum, h]
  · unfold solve_classical
    have := classicalLoop_energy terms size fuel
      (initialSolution randBits, calculate_energy (initialSolution randBits) terms) rfl
    calc calculate_energy (classicalLoop terms size fuel
          (initialSolution randBits, calculate_energy (initialSolution randBits) terms)).1 terms
        = (classicalLoop terms size fuel
          (initialSolution randBits, calculate_energy (initialSolution randBits) terms)).2 :=
          this.1.symm
      _ ≤ calculate_energy (initialSolution randBits) terms := this.2

/-- Witness for `c3_quantum_fallback`: an empty `solutions` list (the
IndexError path) with a small concrete problem. -/
theorem c3_quantum_fallback_witness :
    solve_quantum (.returned (some [])) [QUBOTerm.mk 0 0 1] 2 (fun _ => 1) 3
        = solve_classical [QUBOTerm.mk 0 0 1] 2 (fun _ => 1) 3 ∧
    calculate_energy (solve_classical [QUBOTerm.mk 0 0 1] 2 (fun _ => 1) 3)
        [QUBOTerm.mk 0 0 1]
      ≤ calculate_energy (initialSolution (fun _ => 1)) [QUBOTerm.mk 0 0 1] :=
  ⟨(c3_quantum_fallback [QUBOTerm.mk 0 0 1] 2 (fun _ => 1) 3).2.1 (some []) rfl,
   (c3_quantum_fallback [QUBOTerm.mk 0 0 1] 2 (fun _ => 1) 3).2.2⟩

/-- Counterexample to C6 as stated: the off-diagonal base weight is
`0.5 * exp(-|i-j|)`, not `exp(-|i-j|)` — at `(i, j) = (0, 1)` the two
differ. -/
theorem c6_base_weight_counterexample :
    calculate_base_weight 0 1 ≠ Real.exp (-|(0 : ℝ) - 1|) := by
  have habs : |(0 : ℝ) - 1| = 1 := by norm_num
  unfold calculate_base_weight
  rw [if_neg (by norm_num)]
  simp only [Nat.cast_zero, Nat.cast_one, habs]
  intro h
  have hpos : 0 < Real.exp (-(1 : ℝ)) := Real.exp_pos _
  linarith

lemma sum_map_div (l : List ℝ) (t : ℝ) :
    (l.map (fun x => x / t)).sum = l.sum / t := by
  induction l with
  | nil => simp
  | cons x xs ih => simp [ih, add_div]

/-- C6 (amended): the base weight is `1.0` on the diagonal and
`0.5 * exp(-|i-j|)` off the diagonal (the claim's `exp(-|i-j|)` misses
the factor `0.5`); the reasoning factor combined with it is the slot's
normalized action weight `w_i` on the diagonal and `-0.5 * w_i * w_j` off
the diagonal; the weights are normalized to sum 1 whenever the raw total
is positive; and `build_qubo_with_reasoning` emits the term
`(i, j, base * (1 + 2 * factor))` for every `i <= j < horizon`. -/
theorem c6_term_weights (state : QuantumReasoningState) (horizon i j : ℕ)
    (hij : i ≠ j) (hile : i ≤ j) (hj : j < horizon) :
    calculate_base_weight i i = 1 ∧
    calculate_base_weight i j = (1 / 2) * Real.exp (-|(i : ℝ) - (j : ℝ)|) ∧
    calculate_reasoning_factor (computeReasoningWeights state horizon) i i
      = lookupWeight (computeReasoningWeights state horizon) (scheduleAction i) ∧
    calculate_reasoning_factor (computeReasoningWeights state horizon) i j
      = -(1 / 2) * (lookupWeight (computeReasoningWeights state horizon) (scheduleAction i)
          * lookupWeight (computeReasoningWeights state horizon) (scheduleAction j)) ∧
    (0 < ((rawReasoningWeights state horizon).map Prod.snd).sum →
      ((computeReasoningWeights state horizon).map Prod.snd).sum = 1) ∧
    QUBOTerm.mk i j
        (calculate_term_weight (computeReasoningWeights state horizon) i j)
      ∈ (build_qubo_with_reasoning state horizon).2 := by
  refine ⟨by simp [calculate_base_weight], ?_, ?_, ?_, ?_, ?_⟩
  · unfold calculate_base_weight
    rw [if_neg hij]
  · unfold calculate_reasoning_factor
    simp
  · unfold calculate_reasoning_factor
    dsimp only
    rw [if_neg hij]
  · intro hpos
    unfold computeReasoningWeights
    dsimp only
    rw [if_pos hpos]
    have h1 : (((rawReasoningWeights state horizon).map (fun kv =>
        (kv.1, kv.2 / ((rawReasoningWeights state horizon).map Prod.snd).sum))).map
          Prod.snd)
        = ((rawReasoningWeights state horizon).map Prod.snd).map (fun x : ℝ =>
          x / ((rawReasoningWeights state horizon).map Prod.snd).sum) := by
      rw [List.map_map, List.map_map]
      rfl
    rw [h1, sum_map_div]
    exact div_self (ne_of_gt hpos)
  · unfold build_qubo_with_reasoning
    dsimp only
    rw [List.mem_flatMap]
    refine ⟨i, List.mem_range.2 (lt_of_le_of_lt hile hj), ?_⟩
    rw [List.mem_map]
    refine ⟨j - i, List.mem_range.2 (by omega), ?_⟩
    have hadd : i + (j - i) = j := by omega
    rw [hadd]

/-- Witness for `c6_term_weights` at the fresh state, horizon 2,
`(i, j) = (0, 1)`. -/
theorem c6_term_weights_witness :
    calculate_base_weight 0 0 = 1 ∧
    calculate_base_weight 0 1 = (1 / 2) * Real.exp (-|(0 : ℝ) - (1 : ℝ)|) ∧
    calculate_reasoning_factor (computeReasoningWeights initState 2) 0 0
      = lookupWeight (computeReasoningWeights initState 2) (scheduleAction 0) ∧
    calculate_reasoning_factor (computeReasoningWeights initState 2) 0 1
      = -(1 / 2) * (lookupWeight (computeReasoningWeights initState 2) (scheduleAction 0)
          * lookupWeight (computeReasoningWeights initState 2) (scheduleAction 1)) ∧
    (0 < ((rawReasoningWeights initState 2).map Prod.snd).sum →
      ((computeReasoningWeights initState 2).map Prod.snd).sum = 1) ∧
    QUBOTerm.mk 0 1 (calculate_term_weight (computeReasoningWeights initState 2) 0 1)
      ∈ (build_qubo_with_reasoning initState 2).2 := by
  have h := c6_term_weights initState 2 0 1 (by norm_num) (by norm_num) (by norm_num)
  simpa using h

/-- C10: with an empty task list `optimize_schedule_with_reasoning`
returns exactly `{schedule: {}, objective_value: 0.0,
reasoning_influence: 0.0}` for every horizon, reasoning state and random
stream, leaving the scheduler's `reasoning_weights` untouched (no QUBO is
built and the reasoning state is not consulted: the result and scheduler
state are independent of both). -/
theorem c10_empty_tasks (w0 : List (String × ℝ)) (horizon : ℕ)
    (state : QuantumReasoningState) (pick : ℕ → ℕ → ℕ) :
    optimize_schedule_with_reasoning w0 [] horizon state pick
      = (w0, ⟨[], 0, 0⟩) := by
  unfold optimize_schedule_with_reasoning
  rw [if_pos rfl]

lemma argmaxAux_correct : ∀ (xs : List ℝ) (i best : ℕ) (bv : ℝ),
    (QAOAOptimizer.argmaxAux xs i best bv = best ∧ ∀ x ∈ xs, x ≤ bv) ∨
    (∃ k, k < xs.length ∧ QAOAOptimizer.argmaxAux xs i best bv = i + k ∧
      bv ≤ xs.getD k 0 ∧ ∀ x ∈ xs, x ≤ xs.getD k 0) := by
  intro xs
  induction xs with
  | nil =>
    intro i best bv
    left
    exact ⟨rfl, fun x hx => absurd hx (List.not_mem_nil x)⟩
  | cons x rest ih =>
    intro i best bv
    unfold QAOAOptimizer.argmaxAux
    by_cases hlt : bv < x
    · rw [if_pos hlt]
      rcases ih (i + 1) i x with ⟨h1, h2⟩ | ⟨k, hk, hr, hbv, hall⟩
      · right
        refine ⟨0, by simp, by simpa using h1, le_of_lt hlt, ?_⟩
        intro y hy
        rcases List.mem_cons.1 hy with rfl | hy'
        · simp
        · exact le_trans (h2 y hy') (by simp)
      · right
        refine ⟨k + 1, by simpa using hk, by omega, ?_, ?_⟩
        · simpa using le_trans (le_of_lt hlt) hbv
        · intro y hy
          rcases List.mem_cons.1 hy with rfl | hy'
          · simpa using hbv
          · simpa using hall y hy'
    · rw [if_neg hlt]
      push_neg at hlt
      rcases ih (i + 1) best bv with ⟨h1, h2⟩ | ⟨k, hk, hr, hbv, hall⟩
      · left
        refine ⟨h1, ?_⟩
        intro y hy
        rcases List.mem_cons.1 hy with rfl | hy'
        · exact hlt
        · exact h2 y hy'
      · right
        refine ⟨k + 1, by simpa using hk, by omega, ?_, ?_⟩
        · simpa using hbv
        · intro y hy
          rcases List.mem_cons.1 hy with rfl | hy'
          · simpa using le_trans hlt hbv
          · simpa using hall y hy'

lemma getD_mem_of_lt (l : List ℝ) (k : ℕ) (hk : k < l.length) : l.getD k 0 ∈ l := by
  rw [List.getD_eq_getElem l 0 hk]
  exact List.getElem_mem hk

lemma argmaxIdx_spec (l : List ℝ) (h : l ≠ []) :
    QAOAOptimizer.argmaxIdx l < l.length ∧
    ∀ m, m < l.length → l.getD m 0 ≤ l.getD (QAOAOptimizer.argmaxIdx l) 0 := by
  cases l with
  | nil => exact absurd rfl h
  | cons x rest =>
    have hunf : QAOAOptimizer.argmaxIdx (x :: rest)
        = QAOAOptimizer.argmaxAux rest 1 0 x := rfl
    rcases argmaxAux_correct rest 1 0 x with ⟨h1, h2⟩ | ⟨k, hk, hr, hbv, hall⟩
    · rw [hunf, h1]
      refine ⟨Nat.succ_pos _, ?_⟩
      intro m hm
      cases m with
      | zero => simp
      | succ m' =>
        have hm' : m' < rest.length := by simpa using hm
        have := h2 (rest.getD m' 0) (getD_mem_of_lt rest m' hm')
        simpa using this
    · rw [hunf, hr]
      have hval : (x :: rest).getD (1 + k) 0 = rest.getD k 0 := by
        rw [show 1 + k = k + 1 by omega]
        simp
      constructor
      · simp only [List.length_cons]
        omega
      · intro m hm
        rw [hval]
        cases m with
        | zero => simpa using hbv
        | succ m' =>
          have hm' : m' < rest.length := by simpa using hm
          simpa using hall (rest.getD m' 0) (getD_mem_of_lt rest m' hm')

lemma getD_map_normSq (v : List ℂ) (m : ℕ) (hm : m < v.length) :
    (v.map Complex.normSq).getD m 0 = Complex.normSq (v.getD m 0) := by
  have hm' : m < (v.map Complex.normSq).length := by simpa using hm
  rw [List.getD_eq_getElem _ 0 hm', List.getD_eq_getElem v 0 hm]
  simp

/-- C7: `_measure_state` returns the one-hot basis vector at the (first)
index of maximum `|amplitude|**2`: that index is in range, the output is
1 there and 0 at every other index, and no index has larger squared
amplitude.  The embedding is a pure function of the state vector (argmax,
no sampler input), so two measurements of the same vector are the same
term — the claimed determinism. -/
theorem c7_measure_state (v : List ℂ) (hne : v ≠ []) :
    QAOAOptimizer.argmaxIdx (v.map Complex.normSq) < v.length ∧
    (QAOAOptimizer.measure_state v).getD
        (QAOAOptimizer.argmaxIdx (v.map Complex.normSq)) 0 = 1 ∧
    (∀ m, m < v.length → m ≠ QAOAOptimizer.argmaxIdx (v.map Complex.normSq) →
      (QAOAOptimizer.measure_state v).getD m 0 = 0) ∧
    (∀ m, m < v.length →
      Complex.normSq (v.getD m 0)
        ≤ Complex.normSq (v.getD (QAOAOptimizer.argmaxIdx (v.map Complex.normSq)) 0)) := by
  have hmapne : v.map Complex.normSq ≠ [] := by
    intro hc
    exact hne (List.map_eq_nil_iff.1 hc)
  have hspec := argmaxIdx_spec (v.map Complex.normSq) hmapne
  have hlen : (v.map Complex.normSq).length = v.length := by simp
  have hklt : QAOAOptimizer.argmaxIdx (v.map Complex.normSq) < v.length := by
    rw [← hlen]; exact hspec.1
  have hentry : ∀ m, m < v.length →
      (QAOAOptimizer.measure_state v).getD m 0
        = if m = QAOAOptimizer.argmaxIdx (v.map Complex.normSq) then 1 else 0 := by
    intro m hm
    unfold QAOAOptimizer.measure_state
    have hm' : m < ((List.range v.length).map (fun i =>
        if i = QAOAOptimizer.argmaxIdx (v.map Complex.normSq) then (1 : ℝ) else 0)).length := by
      simpa using hm
    rw [List.getD_eq_getElem _ 0 hm']
    simp [hm]
  refine ⟨hklt, ?_, ?_, ?_⟩
  · rw [hentry _ hklt, if_pos rfl]
  · intro m hm hne'
    rw [hentry m hm, if_neg hne']
  · intro m hm
    have := hspec.2 m (by rwa [hlen])
    rwa [getD_map_normSq v m hm, getD_map_normSq v _ hklt] at this

/-- Witness for `c7_measure_state` at the concrete vector `[1, 0]`. -/
theorem c7_measure_state_witness :
    QAOAOptimizer.argmaxIdx ([(1 : ℂ), 0].map Complex.normSq) < ([(1 : ℂ), 0]).length ∧
    (QAOAOptimizer.measure_state [(1 : ℂ), 0]).getD
        (QAOAOptimizer.argmaxIdx ([(1 : ℂ), 0].map Complex.normSq)) 0 = 1 ∧
    (∀ m, m < ([(1 : ℂ), 0]).length →
      m ≠ QAOAOptimizer.argmaxIdx ([(1 : ℂ), 0].map Complex.normSq) →
      (QAOAOptimizer.measure_state [(1 : ℂ), 0]).getD m 0 = 0) ∧
    (∀ m, m < ([(1 : ℂ), 0]).length →
      Complex.normSq (([(1 : ℂ), 0]).getD m 0)
        ≤ Complex.normSq (([(1 : ℂ), 0]).getD
            (QAOAOptimizer.argmaxIdx ([(1 : ℂ), 0].map Complex.normSq)) 0)) :=
  c7_measure_state [(1 : ℂ), 0] (by simp)

lemma optimizeLoop_spec (params : QAOAParams) (H : ℕ → ℕ → ℂ) (dim n : ℕ) :
    ∀ (fuel : ℕ) (γ β : List ℝ) (cur : ℕ → ℂ) (es : List ℝ),
      (QAOAOptimizer.optimizeLoop params H dim n fuel (γ, β, cur, es)).2.2.2.length
          ≤ es.length + fuel ∧
      ((QAOAOptimizer.optimizeLoop params H dim n fuel (γ, β, cur, es)).2.2.2.length
          = es.length + fuel ∨
        (2 ≤ (QAOAOptimizer.optimizeLoop params H dim n fuel (γ, β, cur, es)).2.2.2.length ∧
          |(QAOAOptimizer.optimizeLoop params H dim n fuel (γ, β, cur, es)).2.2.2.getLastD 0
            - ((QAOAOptimizer.optimizeLoop params H dim n fuel
                (γ, β, cur, es)).2.2.2.dropLast).getLastD 0|
            < params.convergence_threshold)) := by
  intro fuel
  induction fuel with
  | zero =>
    intro γ β cur es
    exact ⟨le_refl _, Or.inl rfl⟩
  | succ fuel ih =>
    intro γ β cur es
    simp only [QAOAOptimizer.optimizeLoop]
    split
    · next hbr =>
      constructor
      · simp only [List.length_append, List.length_cons, List.length_nil]
        omega
      · right
        constructor
        · have : 1 ≤ es.length := List.length_pos.2 hbr.1
          simp only [List.length_append, List.length_cons, List.length_nil]
          omega
        · rw [show (es ++ [QAOAOptimizer.qaoa_energy
              (QAOAOptimizer.apply_qaoa_circuit cur n H γ β) H dim]).getLastD 0
            = QAOAOptimizer.qaoa_energy
              (QAOAOptimizer.apply_qaoa_circuit cur n H γ β) H dim from
              List.getLastD_concat _ _ _]
          rw [List.dropLast_concat]
          exact hbr.2
    · rcases ih (QAOAOptimizer.update_parameters params γ β H
          (QAOAOptimizer.apply_qaoa_circuit cur n H γ β) n dim).1
        (QAOAOptimizer.update_parameters params γ β H
          (QAOAOptimizer.apply_qaoa_circuit cur n H γ β) n dim).2
        (QAOAOptimizer.apply_qaoa_circuit cur n H γ β)
        (es ++ [QAOAOptimizer.qaoa_energy
          (QAOAOptimizer.apply_qaoa_circuit cur n H γ β) H dim]) with ⟨hb, hd⟩
      constructor
      · refine le_trans hb ?_
        simp only [List.length_append, List.length_cons, List.length_nil]
        omega
      · rcases hd with h1 | h2
        · left
          rw [h1]
          simp only [List.length_append, List.length_cons, List.length_nil]
          omega
        · right
          exact h2

lemma withIdx_get? {α : Type _} (l : List α) : ∀ (s i : ℕ),
    (withIdx s l).get? i = (l.get? i).map (fun a => (s + i, a)) := by
  induction l with
  | nil => intro s i; simp [withIdx]
  | cons x xs ih =>
    intro s i
    cases i with
    | zero => simp [withIdx]
    | succ i' =>
      show (withIdx (s + 1) xs).get? i' = _
      rw [ih (s + 1) i']
      have h1 : s + 1 + i' = s + (i' + 1) := by omega
      rw [h1]
      rfl

lemma withIdx_mem {α : Type _} (l : List α) (s i : ℕ) (a : α)
    (h : (i, a) ∈ withIdx s l) : s ≤ i ∧ l.get? (i - s) = some a := by
  rcases List.mem_iff_get?.1 h with ⟨n, hn⟩
  rw [withIdx_get? l s n] at hn
  cases hl : l.get? n with
  | none => rw [hl] at hn; exact absurd hn (by simp)
  | some b =>
    rw [hl] at hn
    simp only [Option.map_some'] at hn
    obtain ⟨h1, h2⟩ := Prod.mk.injEq .. ▸ Option.some.inj hn
    constructor
    · omega
    · rw [show i - s = n by omega, hl, h2]

lemma withIdx_mem_of_get? {α : Type _} (l : List α) (i : ℕ) (a : α)
    (h : l.get? i = some a) : (i, a) ∈ withIdx 0 l := by
  have hg := withIdx_get? l 0 i
  rw [h] at hg
  simp only [Option.map_some', Nat.zero_add] at hg
  exact List.get?_mem hg

lemma take_sum_mono : ∀ (l : List ℕ) (a b : ℕ), a ≤ b →
    (l.take a).sum ≤ (l.take b).sum := by
  intro l
  induction l with
  | nil => intro a b _; simp
  | cons x xs ih =>
    intro a b hab
    cases a with
    | zero => simp
    | succ a' =>
      cases b with
      | zero => omega
      | succ b' =>
        simp only [List.take_succ_cons, List.sum_cons]
        exact Nat.add_le_add_left (ih a' b' (by omega)) x

lemma foldl_establish {α : Type _} {β : Type _} (P : α → Prop) (f : α → β → α) :
    ∀ (l : List β) (b : β), b ∈ l → (∀ a, P (f a b)) →
      (∀ a b', b' ∈ l → P a → P (f a b')) → ∀ a0, P (l.foldl f a0) := by
  intro l
  induction l with
  | nil => intro b hb; exact absurd hb (List.not_mem_nil b)
  | cons x xs ih =>
    intro b hb hest hpres a0
    rcases List.mem_cons.1 hb with rfl | hmem
    · exact foldl_preserve P f xs (f a0 b)
        (fun a' b' hb' => hpres a' b' (List.mem_cons_of_mem _ hb')) (hest a0)
    · exact ih b hmem hest
        (fun a b' hb' => hpres a b' (List.mem_cons_of_mem _ hb')) (f a0 x)

namespace HierarchicalQUBO

lemma offsetOf_succ (levels : List QUBOLevel) (li : ℕ) (lvl : QUBOLevel)
    (h : levels.get? li = some lvl) :
    offsetOf levels (li + 1) = offsetOf levels li + lvl.dim := by
  unfold offsetOf
  have h' : levels[li]? = some lvl := by
    rw [← List.get?_eq_getElem?]
    exact h
  rw [List.take_succ, h']
  simp

lemma offsetOf_mono (levels : List QUBOLevel) (a b : ℕ) (hab : a ≤ b) :
    offsetOf levels a ≤ offsetOf levels b := by
  unfold offsetOf
  rw [List.map_take, List.map_take]
  exact take_sum_mono _ a b hab

lemma position_ne (levels : List QUBOLevel) {li lj vi vj : ℕ}
    {lvli lvlj : QUBOLevel}
    (hi : levels.get? li = some lvli) (hj : levels.get? lj = some lvlj)
    (hvi : vi < lvli.dim) (hvj : vj < lvlj.dim)
    (hne : ¬ (li = lj ∧ vi = vj)) :
    offsetOf levels li + vi ≠ offsetOf levels lj + vj := by
  by_cases hll : li = lj
  · subst hll
    rw [hi] at hj
    have hlv : lvli = lvlj := Option.some.inj hj
    subst hlv
    have hvv : vi ≠ vj := fun hv => hne ⟨rfl, hv⟩
    omega
  · rcases Nat.lt_or_ge li lj with hlt | hge
    · have h1 : offsetOf levels (li + 1) ≤ offsetOf levels lj :=
        offsetOf_mono levels _ _ (by omega)
      have h2 := offsetOf_succ levels li lvli hi
      omega
    · have h1 : offsetOf levels (lj + 1) ≤ offsetOf levels li :=
        offsetOf_mono levels _ _ (by omega)
      have h2 := offsetOf_succ levels lj lvlj hj
      omega

lemma vars_lt_dim (h : HierarchicalQUBO)
    (hwf : ∀ lvl' ∈ h.levels, lvl'.vars.length = lvl'.dim)
    {lj vj : ℕ} {lvlj : QUBOLevel} {namej : String}
    (hgej : h.levels.get? lj = some lvlj) (hvj : lvlj.vars.get? vj = some namej) :
    vj < lvlj.dim := by
  have hmem : lvlj ∈ h.levels := List.get?_mem hgej
  have hlen := hwf lvlj hmem
  have hlt : vj < lvlj.vars.length := List.get?_eq_some.1 hvj |>.choose
  omega

/-- If a write position of the per-variable loops collides with the
position of the tracked constrained variable, it IS that variable. -/
lemma write_safety (h : HierarchicalQUBO)
    (hwf : ∀ lvl' ∈ h.levels, lvl'.vars.length = lvl'.dim)
    {li vi : ℕ} {lvl : QUBOLevel} {name : String}
    (hge : h.levels.get? li = some lvl) (hv : lvl.vars.get? vi = some name)
    {lj vj : ℕ} {lvlj : QUBOLevel} {namej : String}
    (hgej : h.levels.get? lj = some lvlj) (hvj : lvlj.vars.get? vj = some namej)
    (heq : offsetOf h.levels lj + vj = offsetOf h.levels li + vi) :
    lvlj = lvl ∧ namej = name := by
  have hvi_lt : vi < lvl.dim := vars_lt_dim h hwf hge hv
  have hvj_lt : vj < lvlj.dim := vars_lt_dim h hwf hgej hvj
  by_cases hsame : lj = li ∧ vj = vi
  · obtain ⟨rfl, rfl⟩ := hsame
    rw [hge] at hgej
    have hlv : lvlj = lvl := (Option.some.inj hgej).symm
    subst hlv
    rw [hv] at hvj
    exact ⟨rfl, (Option.some.inj hvj).symm⟩
  · exact absurd heq (position_ne h.levels hgej hge hvj_lt hvi_lt hsame)

/-- The seeded solution holds the target value at every constrained
position. -/
lemma seedSolution_constrained (h : HierarchicalQUBO) (rand : ℕ → Fin 2)
    (hwf : ∀ lvl' ∈ h.levels, lvl'.vars.length = lvl'.dim)
    {li vi : ℕ} {lvl : QUBOLevel} {name : String} {t : ℝ}
    (hge : h.levels.get? li = some lvl) (hv : lvl.vars.get? vi = some name)
    (hc : constraintLookup lvl.constraints name = some t) :
    seedSolution h rand (offsetOf h.levels li + vi) = t := by
  unfold seedSolution
  refine foldl_establish (fun sol : ℕ → ℝ => sol (offsetOf h.levels li + vi) = t) _
    (withIdx 0 h.levels) (li, lvl) (withIdx_mem_of_get? h.levels li lvl hge)
    ?_ ?_ _
  · -- processing level li establishes the value
    intro sol
    dsimp only
    refine foldl_establish (fun sol1 : ℕ → ℝ => sol1 (offsetOf h.levels li + vi) = t) _
      (withIdx 0 lvl.vars) (vi, name) (withIdx_mem_of_get? lvl.vars vi name hv)
      ?_ ?_ sol
    · intro sol1
      show writeSol sol1 _ _ _ = t
      unfold writeSol
      rw [if_pos rfl, hc]
    · intro sol1 vb hvb hsol1
      obtain ⟨_, hvgj⟩ := withIdx_mem lvl.vars 0 vb.1 vb.2 (by
        cases vb; exact hvb)
      rw [Nat.sub_zero] at hvgj
      show writeSol sol1 (offsetOf h.levels li + vb.1) _ _ = t
      unfold writeSol
      split
      · next hpos =>
        obtain ⟨hlv, hnm⟩ := write_safety h hwf hge hv hge hvgj (by omega)
        rw [hnm, hc]
      · exact hsol1
  · -- every other level's writes never touch the position
    intro sol lb hlb hsol
    obtain ⟨_, hlgj⟩ := withIdx_mem h.levels 0 lb.1 lb.2 (by cases lb; exact hlb)
    rw [Nat.sub_zero] at hlgj
    refine foldl_preserve (fun sol1 : ℕ → ℝ => sol1 (offsetOf h.levels li + vi) = t) _
      (withIdx 0 lb.2.vars) sol ?_ hsol
    intro sol1 vb hvb hsol1
    obtain ⟨_, hvgj⟩ := withIdx_mem lb.2.vars 0 vb.1 vb.2 (by cases vb; exact hvb)
    rw [Nat.sub_zero] at hvgj
    show writeSol sol1 (offsetOf h.levels lb.1 + vb.1) _ _ = t
    unfold writeSol
    split
    · next hpos =>
      obtain ⟨hlv, hnm⟩ := write_safety h hwf hge hv hlgj hvgj (by omega)
      rw [hlv, hnm, hc]
    · exact hsol1

/-- One greedy sweep never changes a constrained position. -/
lemma hqSweep_constrained (h : HierarchicalQUBO) (M : ℕ → ℕ → ℝ) (n : ℕ)
    (hwf : ∀ lvl' ∈ h.levels, lvl'.vars.length = lvl'.dim)
    {li vi : ℕ} {lvl : QUBOLevel} {name : String} {t : ℝ}
    (hge : h.levels.get? li = some lvl) (hv : lvl.vars.get? vi = some name)
    (hc : constraintLookup lvl.constraints name = some t)
    (st : (ℕ → ℝ) × ℝ × Bool) (hst : st.1 (offsetOf h.levels li + vi) = t) :
    (hqSweep h M n st).1 (offsetOf h.levels li + vi) = t := by
  unfold hqSweep
  refine foldl_preserve (fun st' : (ℕ → ℝ) × ℝ × Bool =>
    st'.1 (offsetOf h.levels li + vi) = t) _ (withIdx 0 h.levels) st ?_ hst
  intro st1 lb hlb hst1
  obtain ⟨_, hlgj⟩ := withIdx_mem h.levels 0 lb.1 lb.2 (by cases lb; exact hlb)
  rw [Nat.sub_zero] at hlgj
  refine foldl_preserve (fun st' : (ℕ → ℝ) × ℝ × Bool =>
    st'.1 (offsetOf h.levels li + vi) = t) _ (withIdx 0 lb.2.vars) st1 ?_ hst1
  intro st2 vb hvb hst2
  obtain ⟨_, hvgj⟩ := withIdx_mem lb.2.vars 0 vb.1 vb.2 (by cases vb; exact hvb)
  rw [Nat.sub_zero] at hvgj
  cases hlook : constraintLookup lb.2.constraints vb.2 with
  | some t' =>
    simp only [hlook]
    exact hst2
  | none =>
    simp only [hlook]
    split
    · show writeSol st2.1 (offsetOf h.levels lb.1 + vb.1) _ _ = t
      unfold writeSol
      split
      · next hpos =>
        obtain ⟨hlv, hnm⟩ := write_safety h hwf hge hv hlgj hvgj (by omega)
        rw [hlv, hnm] at hlook
        rw [hc] at hlook
        exact absurd hlook (by simp)
      · exact hst2
    · exact hst2

lemma hqLoop_constrained (h : HierarchicalQUBO) (M : ℕ → ℕ → ℝ) (n : ℕ)
    (hwf : ∀ lvl' ∈ h.levels, lvl'.vars.length = lvl'.dim)
    {li vi : ℕ} {lvl : QUBOLevel} {name : String} {t : ℝ}
    (hge : h.levels.get? li = some lvl) (hv : lvl.vars.get? vi = some name)
    (hc : constraintLookup lvl.constraints name = some t) :
    ∀ (fuel : ℕ) (se : (ℕ → ℝ) × ℝ), se.1 (offsetOf h.levels li + vi) = t →
      (hqLoop h M n fuel se).1 (offsetOf h.levels li + vi) = t := by
  intro fuel
  induction fuel with
  | zero => intro se hse; exact hse
  | succ fuel ih =>
    intro se hse
    have hsw := hqSweep_constrained h M n hwf hge hv hc (se.1, se.2, false) hse
    simp only [hqLoop]
    split
    · exact ih _ hsw
    · exact hsw

/-- C2: every level variable with a fixed (binary) target value equals
that target in the solution map returned by `optimize()` — the greedy
local search seeds constrained positions with the target and only flips
unconstrained variables. -/
theorem c2_constraint_respect (h : HierarchicalQUBO) (rand : ℕ → Fin 2)
    (hwf : ∀ lvl' ∈ h.levels, lvl'.vars.length = lvl'.dim)
    (_hbin : ∀ lvl' ∈ h.levels, ∀ kv ∈ lvl'.constraints, kv.2 = 0 ∨ kv.2 = 1)
    (li vi : ℕ) (lvl : QUBOLevel) (name : String) (t : ℝ)
    (hge : h.levels.get? li = some lvl)
    (hv : lvl.vars.get? vi = some name)
    (hc : constraintLookup lvl.constraints name = some t) :
    ∃ row, (optimize h rand).get? li = some row ∧ row.get? vi = some t := by
  have hne : h.levels ≠ [] := by
    intro hnil
    rw [hnil] at hge
    exact absurd hge (by simp)
  have hsol : solve_qubo h (combinedMatrix h) rand (offsetOf h.levels li + vi) = t := by
    unfold solve_qubo
    exact hqLoop_constrained h _ _ hwf hge hv hc _ _
      (seedSolution_constrained h rand hwf hge hv hc)
  have hvi_lt : vi < lvl.dim := vars_lt_dim h hwf hge hv
  refine ⟨(List.range lvl.dim).map
    (fun k => solve_qubo h (combinedMatrix h) rand (offsetOf h.levels li + k)), ?_, ?_⟩
  · unfold optimize
    rw [if_neg hne]
    rw [List.get?_map, withIdx_get? h.levels 0 li, hge]
    simp
  · rw [List.get?_map, List.get?_range hvi_lt]
    simp only [Option.map_some']
    rw [hsol]

end HierarchicalQUBO

/-- Witness for `c2_constraint_respect`: the single constrained variable
of `witHQ` comes out at its target value 1. -/
theorem c2_constraint_respect_witness :
    ∃ row, (HierarchicalQUBO.optimize witHQ (fun _ => 0)).get? 0 = some row ∧
      row.get? 0 = some 1 :=
  HierarchicalQUBO.c2_constraint_respect witHQ (fun _ => 0)
    (by
      intro lvl' hmem
      have : lvl' = witLevel := by simpa [witHQ] using hmem
      rw [this]
      simp [witLevel])
    (by
      intro lvl' hmem kv hkv
      have hl : lvl' = witLevel := by simpa [witHQ] using hmem
      rw [hl] at hkv
      have : kv = ("x0", (1 : ℝ)) := by simpa [witLevel] using hkv
      rw [this]
      right
      rfl)
    0 0 witLevel "x0" 1
    (by simp [witHQ])
    (by simp [witLevel])
    (by simp [HierarchicalQUBO.constraintLookup, witLevel])

/-- C4: the modelled exactly-one encoding contains linear term `-1` for
every variable of the task and quadratic term `+2` for every unordered
pair, and for a single task with 2 agents × 2 windows (4 variables, 16
bit combinations) the minimum energy is `-1`, attained exactly when one
variable is set. -/
theorem c4_exactly_one_encoding (n v w : ℕ) (hv : v < n) (hvw : v < w)
    (hw : w < n) :
    (⟨v, v, -1⟩ : SpecTerm) ∈ exactlyOneTerms n ∧
    (⟨v, w, 2⟩ : SpecTerm) ∈ exactlyOneTerms n ∧
    (∀ x : Fin 4 → Bool,
      specEnergy (exactlyOneTerms 4) (fun i => if h : i < 4 then x ⟨i, h⟩ else false)
          ≥ -1 ∧
      (specEnergy (exactlyOneTerms 4) (fun i => if h : i < 4 then x ⟨i, h⟩ else false)
          = -1 ↔ (Finset.univ.filter (fun i => x i)).card = 1)) := by
  refine ⟨?_, ?_, by decide⟩
  · unfold exactlyOneTerms
    rw [List.mem_append]
    left
    rw [List.mem_map]
    exact ⟨v, List.mem_range.2 hv, rfl⟩
  · unfold exactlyOneTerms
    rw [List.mem_append]
    right
    rw [List.mem_flatMap]
    refine ⟨v, List.mem_range.2 hv, ?_⟩
    rw [List.mem_map]
    refine ⟨w - v - 1, List.mem_range.2 (by omega), ?_⟩
    have hvw' : v + (w - v - 1) + 1 = w := by omega
    rw [hvw']

/-- Witness for `c4_exactly_one_encoding` at `n = 4`, variables 0 and 1. -/
theorem c4_exactly_one_encoding_witness :
    (⟨0, 0, -1⟩ : SpecTerm) ∈ exactlyOneTerms 4 ∧
    (⟨0, 1, 2⟩ : SpecTerm) ∈ exactlyOneTerms 4 ∧
    (∀ x : Fin 4 → Bool,
      specEnergy (exactlyOneTerms 4) (fun i => if h : i < 4 then x ⟨i, h⟩ else false)
          ≥ -1 ∧
      (specEnergy (exactlyOneTerms 4) (fun i => if h : i < 4 then x ⟨i, h⟩ else false)
          = -1 ↔ (Finset.univ.filter (fun i => x i)).card = 1)) :=
  c4_exactly_one_encoding 4 0 1 (by norm_num) (by norm_num) (by norm_num)

/-- C8: `optimize` reports `iterations` equal to the number of recorded
energies, records at most `max_iterations` energies, and sets
`success = true` exactly when the loop stopped before exhausting
`max_iterations` — which happens precisely when the last two recorded
energies differ by less than `convergence_threshold` (a convergence hit
at the very last iteration still yields `success = false`, since
`len(energies)` then equals `max_iterations`). -/
theorem c8_optimize_success (params : QAOAParams) (H : ℕ → ℕ → ℂ) (dim : ℕ)
    (γ0 β0 : List ℝ) (istate : Option (List ℂ)) :
    (QAOAOptimizer.optimize params H dim γ0 β0 istate).iterations
        = (QAOAOptimizer.optimize params H dim γ0 β0 istate).history.length ∧
    (QAOAOptimizer.optimize params H dim γ0 β0 istate).history.length
        ≤ params.max_iterations ∧
    ((QAOAOptimizer.optimize params H dim γ0 β0 istate).success = true ↔
      ((QAOAOptimizer.optimize params H dim γ0 β0 istate).history.length
          < params.max_iterations ∧
        2 ≤ (QAOAOptimizer.optimize params H dim γ0 β0 istate).history.length ∧
        |(QAOAOptimizer.optimize params H dim γ0 β0 istate).history.getLastD 0
          - ((QAOAOptimizer.optimize params H dim γ0 β0 istate).history.dropLast).getLastD 0|
          < params.convergence_threshold)) := by
  have hspec := optimizeLoop_spec params H dim (Nat.log 2 dim) params.max_iterations
    γ0 β0 (QAOAOptimizer.vecOf ((istate.getD
      (QAOAOptimizer.create_uniform_superposition (Nat.log 2 dim))))) []
  rcases hspec with ⟨hb, hd⟩
  simp only [List.length_nil, Nat.zero_add] at hb hd
  refine ⟨rfl, hb, ?_⟩
  show decide _ = true ↔ _
  rw [decide_eq_true_eq]
  constructor
  · intro hlt
    rcases hd with h1 | h2
    · exact absurd h1 (by omega)
    · exact ⟨hlt, h2⟩
  · intro h
    exact h.1

end Qam
